import Mathlib

/-!
Verification of the benchmark-orchestration and output-parsing engine of
`scripts/performance-test.py` (class `PasswordCrackingBenchmark`).

Pure string-processing code (the speed normalizers `parse_hashcat_speed` /
`parse_john_speed` and the two benchmark output parsers) is embedded directly
as executable functions over `List Char` / `String`.  Python's `float()`
conversion of a string is modelled exactly over `ℚ` (decimal numerals,
optional sign, optional exponent, underscore digit separators, and the
special `inf` / `infinity` / `nan` forms), with the non-finite results kept
as dedicated constructors of `PyFloat`; rounding of decimal literals to
binary doubles is idealized away, so numeric results are exact rationals.
Python `dict`s are modelled as insertion-ordered association lists whose
update keeps the position of an existing key (`upsert`), matching CPython
semantics.  Effectful functions (`gather_system_info`,
`run_attack_performance_test`, `check_tool_availability`/`generate_report`)
are modelled as functions of an explicit environment of external outcomes
(file reads/writes, subprocess results, removals); an uncaught Python
exception is an `Except.error` result.  All definitions are total: every
partial Python operation (indexing, `float()`, file I/O) is modelled
together with its exception path, so "never raises" claims correspond to
functions whose result type carries no error case (or provably never
produces one).
-/

/-- ASCII decimal digit test, as used throughout the embedding. -/
def isDigit (c : Char) : Bool :=
  decide ('0' ≤ c) && decide (c ≤ '9')

/-- Numeric value of a digit character. -/
def digVal (c : Char) : Nat := c.toNat - '0'.toNat

/-- Python whitespace (the ASCII part of `str.isspace` / `\s` / `strip`). -/
def pyWs (c : Char) : Bool :=
  c = ' ' || c = '\t' || c = '\n' || c = '\r' || c = '\x0b' || c = '\x0c'

/-- ASCII lower-casing, modelling `str.lower` on the ASCII inputs at hand. -/
def toLowerAscii (c : Char) : Char :=
  if 'A' ≤ c ∧ c ≤ 'Z' then Char.ofNat (c.toNat + 32) else c

/-- Model of `str.strip()`: drop Python whitespace from both ends. -/
def stripWs (cs : List Char) : List Char :=
  ((cs.dropWhile pyWs).reverse.dropWhile pyWs).reverse

/-- Boolean list-prefix test (pattern first). -/
def startsWith : List Char → List Char → Bool
  | [], _ => true
  | _ :: _, [] => false
  | a :: as, b :: bs => a = b && startsWith as bs

/-- Model of Python's substring containment `pat in s`. -/
def containsSub (pat : List Char) : List Char → Bool
  | [] => startsWith pat []
  | c :: cs => startsWith pat (c :: cs) || containsSub pat cs

/-- Model of Python `s.split('\n')`: split on newlines, keeping empty pieces. -/
def splitLines : List Char → List (List Char)
  | [] => [[]]
  | c :: cs =>
    if c = '\n' then [] :: splitLines cs
    else
      match splitLines cs with
      | l :: ls => (c :: l) :: ls
      | [] => [[c]]

/-- Worker for `splitWs`: `acc` holds the current token reversed. -/
def splitWsAux : List Char → List Char → List (List Char)
  | [], acc => if acc = [] then [] else [acc.reverse]
  | c :: cs, acc =>
    if pyWs c then
      if acc = [] then splitWsAux cs [] else acc.reverse :: splitWsAux cs []
    else splitWsAux cs (c :: acc)

/-- Model of Python `s.split()` (no argument): whitespace-separated tokens,
empty tokens dropped. -/
def splitWs (cs : List Char) : List (List Char) := splitWsAux cs []

/-- Model of `line.split(':')` restricted to the two fields the code reads:
`parts[0]` (before the first colon) and `parts[1]` (between the first and
second colon); `none` when the line has no colon. -/
def splitFirstColon (cs : List Char) : Option (List Char × List Char) :=
  let p0 := cs.takeWhile (fun c => c ≠ ':')
  match cs.dropWhile (fun c => c ≠ ':') with
  | _ :: r => some (p0, r.takeWhile (fun c => c ≠ ':'))
  | [] => none

/-- Association-list lookup by key (Python `d[k]` / key membership). -/
def alookup (k : String) : List (String × α) → Option α
  | [] => none
  | (k', v) :: rest => if k' = k then some v else alookup k rest

/-- Python `dict` assignment `d[k] = v`: replace in place if the key exists
(keeping its position, as CPython does), else append at the end. -/
def upsert (k : String) (v : α) : List (String × α) → List (String × α)
  | [] => [(k, v)]
  | (k', v') :: rest => if k' = k then (k, v) :: rest else (k', v') :: upsert k v rest

/-- Value of a digit list read left to right in base 10. -/
def digitsVal (ds : List Char) : Nat :=
  ds.foldl (fun a c => 10 * a + digVal c) 0

/-- Result of Python's `float()` conversion: a finite value (kept exact as a
rational), one of the two infinities, or a NaN. -/
inductive PyFloat where
  | finite (q : ℚ)
  | inf
  | negInf
  | nan
deriving DecidableEq, Repr

/-- Multiplication of a `float()` result by a positive finite constant, as in
`float(s[:-1]) * multipliers[s[-1]]`. -/
def PyFloat.mulConst (x : PyFloat) (q : ℚ) : PyFloat :=
  match x with
  | .finite a => .finite (a * q)
  | .inf => .inf
  | .negInf => .negInf
  | .nan => .nan

/-- Non-negativity of a `float()` result, with Python comparison semantics
(`nan >= 0` is false). -/
def PyFloat.Nonneg : PyFloat → Prop
  | .finite q => 0 ≤ q
  | .inf => True
  | .negInf => False
  | .nan => False

/-- Consume a CPython `digitpart` continuation: digits with single `_`
separators allowed between digits.  Returns the accumulated value, the
number of digits consumed, and the rest of the input.  A `_` not followed
by a digit is left unconsumed. -/
def digitsCont : List Char → Nat → Nat → Nat × Nat × List Char
  | [], v, n => (v, n, [])
  | c :: cs, v, n =>
    if isDigit c then digitsCont cs (10 * v + digVal c) (n + 1)
    else if c = '_' then
      match cs with
      | c2 :: cs2 =>
        if isDigit c2 then digitsCont cs2 (10 * v + digVal c2) (n + 1)
        else (v, n, c :: cs)
      | [] => (v, n, [c])
    else (v, n, c :: cs)

/-- Consume a leading digitpart if the first character is a digit, else
consume nothing.  Returns value, digit count and rest. -/
def headDigits (cs : List Char) : Nat × Nat × List Char :=
  match cs with
  | c :: _ => if isDigit c then digitsCont cs 0 0 else (0, 0, cs)
  | [] => (0, 0, [])

/-- Read an optional leading sign; returns the negativity flag and the
rest. -/
def readSign (s : List Char) : Bool × List Char :=
  match s with
  | c :: r => if c = '+' then (false, r) else if c = '-' then (true, r) else (false, s)
  | [] => (false, [])

/-- Parse the mantissa of a CPython float literal: `[digitpart] ["."
[digitpart]]` with at least one digit overall.  Returns its exact rational
value and the unconsumed rest. -/
def parseNumber (cs : List Char) : Option (ℚ × List Char) :=
  let ip := headDigits cs
  match ip.2.2 with
  | c :: r2 =>
    if c = '.' then
      let fp := headDigits r2
      if ip.2.1 + fp.2.1 = 0 then none
      else some ((ip.1 : ℚ) + (fp.1 : ℚ) / (10 : ℚ) ^ fp.2.1, fp.2.2)
    else if ip.2.1 = 0 then none else some ((ip.1 : ℚ), ip.2.2)
  | [] => if ip.2.1 = 0 then none else some ((ip.1 : ℚ), ip.2.2)

/-- Parse the optional exponent of a CPython float literal: `("e"|"E")
[sign] digitpart`.  An `e`/`E` with no valid digitpart fails the whole
parse; absence of an exponent yields exponent `0`. -/
def parseExp (cs : List Char) : Option (Int × List Char) :=
  match cs with
  | c :: rest =>
    if c = 'e' ∨ c = 'E' then
      let sr := readSign rest
      match sr.2 with
      | c2 :: _ =>
        if isDigit c2 then
          let d := digitsCont sr.2 0 0
          some (if sr.1 then -(d.1 : Int) else (d.1 : Int), d.2.2)
        else none
      | [] => none
    else some (0, c :: rest)
  | [] => some (0, [])

/-- Model of CPython `float(s)` on a character list: strip whitespace, read
an optional sign, accept `inf`/`infinity`/`nan` case-insensitively, else a
decimal mantissa with optional exponent; `none` is a raised `ValueError`. -/
def pyFloatOfChars (cs : List Char) : Option PyFloat :=
  let s := stripWs cs
  let signed := readSign s
  let low := signed.2.map toLowerAscii
  if low = ['i', 'n', 'f'] ∨ low = ['i', 'n', 'f', 'i', 'n', 'i', 't', 'y'] then
    some (if signed.1 then .negInf else .inf)
  else if low = ['n', 'a', 'n'] then some .nan
  else
    match parseNumber signed.2 with
    | none => none
    | some (m, rest) =>
      match parseExp rest with
      | none => none
      | some (e, rest2) =>
        if rest2 = [] then
          some (.finite ((if signed.1 then -m else m) * (10 : ℚ) ^ e))
        else none

/-- The hashcat magnitude-suffix table `{'k': 1e3, 'M': 1e6, 'G': 1e9,
'T': 1e12}` (case-sensitive). -/
def hashcatMultipliers (c : Char) : Option ℚ :=
  if c = 'k' then some 1000
  else if c = 'M' then some 1000000
  else if c = 'G' then some 1000000000
  else if c = 'T' then some 1000000000000
  else none

/-- The John the Ripper magnitude-suffix table `{'K': 1e3, 'M': 1e6,
'G': 1e9}` (case-sensitive). -/
def johnMultipliers (c : Char) : Option ℚ :=
  if c = 'K' then some 1000
  else if c = 'M' then some 1000000
  else if c = 'G' then some 1000000000
  else none

/-- Embedding of `parse_hashcat_speed` (performance-test.py:135-145): if the
last character is a known suffix, `float()` of the rest times its
multiplier, else `float()` of the whole string; any exception (empty
string indexing, failed conversion) yields `0.0`. -/
def parse_hashcat_speed (s : String) : PyFloat :=
  match s.data.getLast? with
  | none => .finite 0
  | some c =>
    match hashcatMultipliers c with
    | some m =>
      match pyFloatOfChars s.data.dropLast with
      | some v => v.mulConst m
      | none => .finite 0
    | none =>
      match pyFloatOfChars s.data with
      | some v => v
      | none => .finite 0

/-- Embedding of `parse_john_speed` (performance-test.py:190-200), same shape
as `parse_hashcat_speed` but with the John suffix table. -/
def parse_john_speed (s : String) : PyFloat :=
  match s.data.getLast? with
  | none => .finite 0
  | some c =>
    match johnMultipliers c with
    | some m =>
      match pyFloatOfChars s.data.dropLast with
      | some v => v.mulConst m
      | none => .finite 0
    | none =>
      match pyFloatOfChars s.data with
      | some v => v
      | none => .finite 0

/-- The throughput-unit marker of hashcat output, `'H/s'`. -/
def hsPat : List Char := ['H', '/', 's']

/-- The throughput-unit marker of John output, `'c/s'`. -/
def csPat : List Char := ['c', '/', 's']

/-- One benchmark metric of the hashcat parser: fields `speed_hs` and
`speed_formatted`. -/
structure HCMetric where
  speed_hs : PyFloat
  speed_formatted : String
deriving DecidableEq, Repr

/-- One benchmark metric of the John parser: fields `speed_cs` and
`speed_formatted`. -/
structure JMetric where
  speed_cs : PyFloat
  speed_formatted : String
deriving DecidableEq, Repr

/-- The `hash_types` lookup table of `parse_hashcat_benchmark`
(performance-test.py:105-111). -/
def hash_types (s : String) : Option String :=
  if s = "0" then some "MD5"
  else if s = "100" then some "SHA1"
  else if s = "1400" then some "SHA256"
  else if s = "3200" then some "bcrypt"
  else if s = "1800" then some "SHA512"
  else none

/-- The inner `for j in range(i+1, len(parts))` loop of
`parse_hashcat_benchmark`: walk the tokens after the matched mode code and
return `(parts[j-1], parts[j])` for the first `j` whose token contains
`'H/s'`.  `prev` starts as the mode-code token itself (`j-1 = i`). -/
def findSpeedPair (prev : List Char) : List (List Char) → Option (List Char × List Char)
  | [] => none
  | t :: ts => if containsSub hsPat t then some (prev, t) else findSpeedPair t ts

/-- The metric written by one token of a hashcat benchmark line, if any:
the token must be a known mode code and some later token of the line must
contain `'H/s'`. -/
def tokenUpdate (t : List Char) (ts : List (List Char)) : Option (String × HCMetric) :=
  match hash_types (String.mk t) with
  | some alg =>
    match findSpeedPair t ts with
    | some (sstr, u) =>
      some (alg, ⟨parse_hashcat_speed (String.mk sstr), String.mk (sstr ++ ' ' :: u)⟩)
    | none => none
  | none => none

/-- Apply an optional dict update. -/
def applyUpd (res : List (String × α)) : Option (String × α) → List (String × α)
  | some (k, v) => upsert k v res
  | none => res

/-- The `for i, part in enumerate(parts)` loop of `parse_hashcat_benchmark`:
process the tokens of a line left to right, updating the results dict. -/
def processTokens : List (String × HCMetric) → List (List Char) → List (String × HCMetric)
  | res, [] => res
  | res, t :: ts => processTokens (applyUpd res (tokenUpdate t ts)) ts

/-- Processing of one line by `parse_hashcat_benchmark`: lines without an
`'H/s'` substring are skipped. -/
def processLine (res : List (String × HCMetric)) (line : List Char) : List (String × HCMetric) :=
  if containsSub hsPat line then processTokens res (splitWs line) else res

/-- Embedding of `parse_hashcat_benchmark` (performance-test.py:102-133). -/
def parse_hashcat_benchmark (output : String) : List (String × HCMetric) :=
  (splitLines output.data).foldl processLine []

/-- The `\s*` and case-insensitive `c/s` tail of the John speed regex:
consume maximal whitespace, then `c/s` up to case, returning the consumed
characters as they occur in the input. -/
def tryUnit (cs : List Char) : Option (List Char) :=
  let ws := cs.takeWhile pyWs
  match cs.drop ws.length with
  | c1 :: c2 :: c3 :: _ =>
    if toLowerAscii c1 = 'c' ∧ c2 = '/' ∧ toLowerAscii c3 = 's' then
      some (ws ++ [c1, c2, c3])
    else none
  | _ => none

/-- Is the character matched by `[KMG]` under `re.IGNORECASE`? -/
def isKMGi (c : Char) : Bool :=
  c = 'K' || c = 'M' || c = 'G' || c = 'k' || c = 'm' || c = 'g'

/-- The `[KMG]?\s*c/s` tail of the John speed regex at a given point, with
the greedy-then-backtrack semantics of the optional suffix.  `pre` is the
part of group 1 already matched; returns `(group1, group0)`. -/
def trySuffix (pre : List Char) (cs : List Char) : Option (List Char × List Char) :=
  match cs with
  | c :: rest =>
    if isKMGi c then
      match tryUnit rest with
      | some consumed => some (pre ++ [c], pre ++ [c] ++ consumed)
      | none =>
        match tryUnit cs with
        | some consumed => some (pre, pre ++ consumed)
        | none => none
    else
      match tryUnit cs with
      | some consumed => some (pre, pre ++ consumed)
      | none => none
  | [] =>
    match tryUnit cs with
    | some consumed => some (pre, pre ++ consumed)
    | none => none

/-- The `(?:\.\d+)?` alternative taken greedily: if the rest starts with a
dot followed by digits, extend group 1 with them and try the suffix-and-unit
tail from there. -/
def tryFrac (ds rest1 : List Char) : Option (List Char × List Char) :=
  match rest1 with
  | c :: r2 =>
    if c = '.' then
      let ds2 := r2.takeWhile isDigit
      if ds2 = [] then none
      else trySuffix (ds ++ '.' :: ds2) (r2.drop ds2.length)
    else none
  | [] => none

/-- Match `(\d+(?:\.\d+)?[KMG]?)\s*c/s` (IGNORECASE) at the start of `cs`,
with the regex engine's greedy-then-backtrack handling of the optional
fraction; maximal-munch for the digit runs and `\s*` is exact here because
shorter alternatives always fail on the following literal. -/
def tryMatchAt (cs : List Char) : Option (List Char × List Char) :=
  let ds := cs.takeWhile isDigit
  if ds = [] then none
  else
    let rest1 := cs.drop ds.length
    match tryFrac ds rest1 with
    | some r => some r
    | none => trySuffix ds rest1

/-- Model of `re.search(r'(\d+(?:\.\d+)?[KMG]?)\s*c/s', s, re.IGNORECASE)`:
leftmost match, returning `(group(1), group(0))`. -/
def johnSpeedSearch : List Char → Option (List Char × List Char)
  | [] => none
  | c :: cs =>
    match tryMatchAt (c :: cs) with
    | some r => some r
    | none => johnSpeedSearch cs

/-- The dict update contributed by one line of John benchmark output
(performance-test.py:169-186): the line must contain `c/s` case-insensitively
and a colon; the label before the first colon (stripped) maps to the metric
extracted from the text between the first and second colon (stripped). -/
def johnLineUpdate (line : List Char) : Option (String × JMetric) :=
  if containsSub csPat (line.map toLowerAscii) then
    match splitFirstColon line with
    | some (p0, p1) =>
      match johnSpeedSearch (stripWs p1) with
      | some (g1, g0) =>
        some (String.mk (stripWs p0), ⟨parse_john_speed (String.mk g1), String.mk g0⟩)
      | none => none
    | none => none
  else none

/-- Processing of one line by `parse_john_benchmark`. -/
def processJohnLine (res : List (String × JMetric)) (line : List Char) : List (String × JMetric) :=
  applyUpd res (johnLineUpdate line)

/-- Embedding of `parse_john_benchmark` (performance-test.py:164-188). -/
def parse_john_benchmark (output : String) : List (String × JMetric) :=
  (splitLines output.data).foldl processJohnLine []

/-- Host facts collected by `gather_system_info`; the always-present
`timestamp`/`platform` entries are claim-irrelevant and omitted.  A `none`
field is an absent dict key. -/
structure SystemInfo where
  cpu : Option String
  memory_gb : Option Nat
  gpu : Option String
deriving DecidableEq, Repr

/-- Decidable equality for `Except`, used by the outcome environments. -/
instance [DecidableEq ε] [DecidableEq α] : DecidableEq (Except ε α) := fun a b =>
  match a, b with
  | .error e, .error f =>
    if h : e = f then .isTrue (h ▸ rfl) else .isFalse (fun hh => h (Except.error.inj hh))
  | .ok x, .ok y =>
    if h : x = y then .isTrue (h ▸ rfl) else .isFalse (fun hh => h (Except.ok.inj hh))
  | .error _, .ok _ => .isFalse Except.noConfusion
  | .ok _, .error _ => .isFalse Except.noConfusion

/-- External outcomes seen by `gather_system_info`: existence and contents
of the two proc files (an `Except.error` read is a raised `OSError`) and
the result of the `nvidia-smi` probe (return code and stdout, or a raised
exception/timeout). -/
structure SysEnv where
  cpuinfoExists : Bool
  cpuinfoRead : Except Unit String
  meminfoExists : Bool
  meminfoRead : Except Unit String
  gpuProbe : Except Unit (Int × String)
deriving DecidableEq, Repr

/-- The literal pattern of the CPU regex `model name\s*:\s*(.+)`. -/
def modelNamePat : List Char := "model name".data

/-- The literal pattern of the memory regex `MemTotal:\s*(\d+)`. -/
def memPat : List Char := "MemTotal:".data

/-- The `\s*(.+)` tail of the CPU regex after the colon: maximal whitespace,
then at least one non-newline character, greedily to the end of the line;
when everything remaining is whitespace the engine backtracks `\s*` to the
last non-newline character. -/
def dotPlusCapture (cs : List Char) : Option (List Char) :=
  match cs.dropWhile pyWs with
  | c :: r => some (c :: r.takeWhile (fun x => x ≠ '\n'))
  | [] =>
    match cs.reverse.dropWhile (fun c => c = '\n') with
    | c :: _ => some [c]
    | [] => none

/-- Try the CPU regex at the start of `cs`; returns `group(1)`. -/
def matchCpuAt (cs : List Char) : Option (List Char) :=
  if startsWith modelNamePat cs then
    match (cs.drop modelNamePat.length).dropWhile pyWs with
    | ':' :: r3 => dotPlusCapture r3
    | _ => none
  else none

/-- Model of `re.search(r'model name\s*:\s*(.+)', s)`: leftmost match. -/
def searchCpu : List Char → Option (List Char)
  | [] => none
  | c :: cs =>
    match matchCpuAt (c :: cs) with
    | some cap => some cap
    | none => searchCpu cs

/-- Try the memory regex at the start of `cs`; returns `int(group(1))`. -/
def matchMemAt (cs : List Char) : Option Nat :=
  if startsWith memPat cs then
    let r := (cs.drop memPat.length).dropWhile pyWs
    let ds := r.takeWhile isDigit
    if ds = [] then none else some (digitsVal ds)
  else none

/-- Model of `re.search(r'MemTotal:\s*(\d+)', s)`: leftmost match. -/
def searchMem : List Char → Option Nat
  | [] => none
  | c :: cs =>
    match matchMemAt (c :: cs) with
    | some n => some n
    | none => searchMem cs

/-- The CPU block body: set `cpu` from the regex capture, stripped, if the
regex matched. -/
def applyCpu (si : SystemInfo) (content : String) : SystemInfo :=
  match searchCpu content.data with
  | some cap => { si with cpu := some (String.mk (stripWs cap)) }
  | none => si

/-- The memory block body: set `memory_gb` to `int(group(1)) // 1024 // 1024`
if the regex matched. -/
def applyMem (si : SystemInfo) (content : String) : SystemInfo :=
  match searchMem content.data with
  | some n => { si with memory_gb := some (n / 1024 / 1024) }
  | none => si

/-- `stdout.strip().split('\n')[0]` of the accelerator probe. -/
def firstLineOfStripped (out : String) : String :=
  String.mk ((stripWs out.data).takeWhile (fun c => c ≠ '\n'))

/-- The GPU block of `gather_system_info` (performance-test.py:48-55): its
own `try` catches every failure and stores the `'Not available'` sentinel;
a zero exit code stores the first stdout line; any other exit code stores
nothing. -/
def gatherGpu (env : SysEnv) (si : SystemInfo) : SystemInfo :=
  match env.gpuProbe with
  | .ok (rc, out) => if rc = 0 then { si with gpu := some (firstLineOfStripped out) } else si
  | .error _ => { si with gpu := some "Not available" }

/-- The memory block of `gather_system_info` (performance-test.py:40-46):
a raised read aborts to the enclosing `except`, keeping the entries made so
far and skipping the GPU block. -/
def gatherMem (env : SysEnv) (si : SystemInfo) : SystemInfo :=
  if env.meminfoExists then
    match env.meminfoRead with
    | .error _ => si
    | .ok content => gatherGpu env (applyMem si content)
  else gatherGpu env si

/-- Embedding of `gather_system_info` (performance-test.py:24-60).  The CPU,
memory and GPU blocks run in sequence inside one `try`; a raised proc-file
read jumps to the outer `except Exception`, which only prints a warning, so
the function itself never raises. -/
def gather_system_info (env : SysEnv) : SystemInfo :=
  let si0 : SystemInfo := ⟨none, none, none⟩
  if env.cpuinfoExists then
    match env.cpuinfoRead with
    | .error _ => si0
    | .ok content => gatherMem env (applyCpu si0 content)
  else gatherMem env si0

/-- Outcome of one `subprocess.run` dictionary-attack invocation: the process
completed with some return code, or the call raised (timeout, missing
binary, ...). -/
inductive RunOutcome where
  | completed (returncode : Int)
  | raises
deriving DecidableEq, Repr

/-- One entry of the `results` dict of `run_attack_performance_test`:
`time_seconds` and `success`. -/
structure AttackResult where
  time_seconds : ℚ
  success : Bool
deriving DecidableEq, Repr

/-- External outcomes seen by `run_attack_performance_test`: whether each
fixture write succeeds (a failure is a raised `OSError`), each tool's
subprocess outcome with its measured wall-clock time, and whether each
`os.remove` succeeds. -/
structure AttackEnv where
  hashWriteOk : Bool
  wordlistWriteOk : Bool
  hashcatOutcome : RunOutcome
  hashcatElapsed : ℚ
  johnOutcome : RunOutcome
  johnElapsed : ℚ
  removeHashOk : Bool
  removeWordlistOk : Bool
deriving DecidableEq, Repr

/-- Which of the two temporary fixture files exist on disk. -/
structure FS where
  hashFileExists : Bool
  wordlistFileExists : Bool
deriving DecidableEq, Repr

/-- The attack result recorded for one tool: the per-tool `try` converts any
raised invocation into `{'time_seconds': 0, 'success': False}`. -/
def attackResult (o : RunOutcome) (elapsed : ℚ) : AttackResult :=
  match o with
  | .completed rc => ⟨elapsed, rc = 0⟩
  | .raises => ⟨0, false⟩

/-- Embedding of `run_attack_performance_test` (performance-test.py:202-265)
over an outcome environment.  The two fixture writes are outside any `try`,
so a failed write raises out of the function (`Except.error`), leaving
whatever was already written on disk.  Both attack invocations are
individually guarded.  Cleanup removes the hash file and then the wordlist
file inside a single `try: ... except: pass`, so a failed first removal
skips the second and no cleanup failure escapes. -/
def run_attack_performance_test (env : AttackEnv) :
    Except Unit (List (String × AttackResult)) × FS :=
  if env.hashWriteOk then
    if env.wordlistWriteOk then
      let r1 := attackResult env.hashcatOutcome env.hashcatElapsed
      let r2 := attackResult env.johnOutcome env.johnElapsed
      let fs :=
        if env.removeHashOk then
          if env.removeWordlistOk then FS.mk false false else FS.mk false true
        else FS.mk true true
      (.ok [("hashcat_dictionary", r1), ("john_dictionary", r2)], fs)
    else (.error (), FS.mk true false)
  else (.error (), FS.mk false false)

/-- Outcome of one benchmark subprocess invocation: completed with a return
code and captured text, or raised (timeout or other exception). -/
inductive BenchOutcome where
  | completed (returncode : Int) (output : String)
  | raises
deriving DecidableEq, Repr

/-- Embedding of `benchmark_hashcat` (performance-test.py:81-100): a nonzero
exit code or any raised exception yields an empty dict, else the stdout is
parsed. -/
def benchmark_hashcat (o : BenchOutcome) : List (String × HCMetric) :=
  match o with
  | .completed rc out => if rc = 0 then parse_hashcat_benchmark out else []
  | .raises => []

/-- Embedding of `benchmark_john` (performance-test.py:147-162): the return
code is ignored and the combined stdout+stderr is parsed; a raised
exception yields an empty dict. -/
def benchmark_john (o : BenchOutcome) : List (String × JMetric) :=
  match o with
  | .completed _ out => parse_john_benchmark out
  | .raises => []

/-- External outcomes seen by `generate_report`: the availability booleans
produced by `check_tool_availability` (whose probe failures are all caught
inside it), the host-fact environment, the two benchmark invocations and
the attack-test environment. -/
structure ReportEnv where
  sys : SysEnv
  hashcatAvailable : Bool
  johnAvailable : Bool
  hashcatBench : BenchOutcome
  johnBench : BenchOutcome
  attackEnv : AttackEnv
deriving Repr

/-- The report value assembled by `generate_report`: metadata (host context
and per-tool availability booleans), the per-tool benchmark dicts (`none`
when the tool's key is absent from `report['benchmarks']`), and the attack
results. -/
structure Report where
  system_info : SystemInfo
  hashcat_available : Bool
  john_available : Bool
  benchmarks_hashcat : Option (List (String × HCMetric))
  benchmarks_john : Option (List (String × JMetric))
  performance_tests : List (String × AttackResult)
deriving Repr

/-- Embedding of `generate_report` (performance-test.py:267-293): benchmarks
run per available tool; the attack test runs when either tool is available,
and an exception raised inside it (a failed fixture write) propagates out
of `generate_report` (`Except.error`), aborting report assembly. -/
def generate_report (env : ReportEnv) : Except Unit Report :=
  let si := gather_system_info env.sys
  let bh := if env.hashcatAvailable then some (benchmark_hashcat env.hashcatBench) else none
  let bj := if env.johnAvailable then some (benchmark_john env.johnBench) else none
  if env.hashcatAvailable || env.johnAvailable then
    match (run_attack_performance_test env.attackEnv).1 with
    | .error _ => .error ()
    | .ok pt => .ok ⟨si, env.hashcatAvailable, env.johnAvailable, bh, bj, pt⟩
  else .ok ⟨si, env.hashcatAvailable, env.johnAvailable, bh, bj, []⟩

/-! ### Generic list, dict and substring lemmas -/

theorem startsWith_self_append (p r : List Char) : startsWith p (p ++ r) = true := by
  induction p with
  | nil => rfl
  | cons a as ih => simp [startsWith, ih]

theorem startsWith_append_right {p l : List Char} (h : startsWith p l = true) (y : List Char) :
    startsWith p (l ++ y) = true := by
  induction p generalizing l with
  | nil => rfl
  | cons a as ih =>
    cases l with
    | nil => simp [startsWith] at h
    | cons b bs =>
      simp only [startsWith, Bool.and_eq_true] at h
      simp [startsWith, h.1, ih h.2]

theorem containsSub_of_startsWith {p l : List Char} (h : startsWith p l = true) :
    containsSub p l = true := by
  cases l with
  | nil => simpa [containsSub] using h
  | cons c cs => simp [containsSub, h]

theorem containsSub_append_left {p l : List Char} (h : containsSub p l = true) (x : List Char) :
    containsSub p (x ++ l) = true := by
  induction x with
  | nil => simpa using h
  | cons a as ih => simp [containsSub, ih]

theorem containsSub_append_right {p l : List Char} (h : containsSub p l = true) (y : List Char) :
    containsSub p (l ++ y) = true := by
  induction l with
  | nil =>
    simp only [containsSub] at h
    exact containsSub_of_startsWith (startsWith_append_right h y)
  | cons c cs ih =>
    simp only [containsSub, Bool.or_eq_true] at h
    rcases h with h | h
    · exact containsSub_of_startsWith (startsWith_append_right h y)
    · simpa [containsSub] using Or.inr (ih h)

theorem containsSub_of_middle {p t : List Char} (pre post : List Char)
    (h : containsSub p t = true) : containsSub p (pre ++ t ++ post) = true := by
  rw [List.append_assoc]
  exact containsSub_append_left (containsSub_append_right h post) pre

theorem splitWsAux_decomp {t : List Char} :
    ∀ (l acc : List Char), t ∈ splitWsAux l acc →
      ∃ pre post, acc.reverse ++ l = pre ++ t ++ post := by
  intro l
  induction l with
  | nil =>
    intro acc h
    by_cases hacc : acc = []
    · rw [show splitWsAux [] acc = [] by simp [splitWsAux, hacc]] at h
      exact absurd h (List.not_mem_nil t)
    · rw [show splitWsAux [] acc = [acc.reverse] by simp [splitWsAux, hacc]] at h
      have ht : t = acc.reverse := List.mem_singleton.mp h
      exact ⟨[], [], by rw [ht]; simp⟩
  | cons c cs ih =>
    intro acc h
    by_cases hws : pyWs c = true
    · by_cases hacc : acc = []
      · rw [show splitWsAux (c :: cs) acc = splitWsAux cs []
              by simp [splitWsAux, hws, hacc]] at h
        obtain ⟨pre, post, hd⟩ := ih [] h
        have hcs : cs = pre ++ t ++ post := by simpa using hd
        exact ⟨c :: pre, post, by simp [hacc, hcs]⟩
      · rw [show splitWsAux (c :: cs) acc = acc.reverse :: splitWsAux cs []
              by simp [splitWsAux, hws, hacc]] at h
        rcases List.mem_cons.mp h with ht | h2
        · exact ⟨[], c :: cs, by rw [ht]; simp⟩
        · obtain ⟨pre, post, hd⟩ := ih [] h2
          have hcs : cs = pre ++ t ++ post := by simpa using hd
          exact ⟨acc.reverse ++ c :: pre, post, by simp [hcs, List.append_assoc]⟩
    · rw [show splitWsAux (c :: cs) acc = splitWsAux cs (c :: acc)
            by simp [splitWsAux, hws]] at h
      obtain ⟨pre, post, hd⟩ := ih (c :: acc) h
      refine ⟨pre, post, ?_⟩
      have h2 : acc.reverse ++ ([c] ++ cs) = pre ++ t ++ post := by
        simpa [List.reverse_cons, List.append_assoc] using hd
      simpa using h2

theorem splitWs_decomp {t l : List Char} (h : t ∈ splitWs l) :
    ∃ pre post, l = pre ++ t ++ post := by
  obtain ⟨pre, post, hd⟩ := splitWsAux_decomp l [] h
  exact ⟨pre, post, by simpa using hd⟩

theorem containsSub_of_token {p t l : List Char} (ht : t ∈ splitWs l)
    (h : containsSub p t = true) : containsSub p l = true := by
  obtain ⟨pre, post, rfl⟩ := splitWs_decomp ht
  exact containsSub_of_middle pre post h

theorem alookup_upsert_self (k : String) (v : α) (res : List (String × α)) :
    alookup k (upsert k v res) = some v := by
  induction res with
  | nil => simp [upsert, alookup]
  | cons p rest ih =>
    obtain ⟨k', v'⟩ := p
    by_cases h : k' = k
    · subst h
      simp [upsert, alookup]
    · simp [upsert, h, alookup, ih]

theorem alookup_upsert_ne {k k' : String} (h : k' ≠ k) (v : α) (res : List (String × α)) :
    alookup k (upsert k' v res) = alookup k res := by
  induction res with
  | nil => simp [upsert, alookup, h]
  | cons p rest ih =>
    obtain ⟨k'', v''⟩ := p
    by_cases h2 : k'' = k'
    · subst h2
      simp [upsert, alookup, h]
    · by_cases h3 : k'' = k
      · subst h3
        simp [upsert, h2, alookup]
      · simp [upsert, h2, alookup, h3, ih]

theorem mem_upsert {p : String × α} {k : String} {v : α} {res : List (String × α)}
    (h : p ∈ upsert k v res) : p = (k, v) ∨ p ∈ res := by
  induction res with
  | nil =>
    rw [show upsert k v ([] : List (String × α)) = [(k, v)] from rfl] at h
    exact Or.inl (List.mem_singleton.mp h)
  | cons q rest ih =>
    obtain ⟨k', v'⟩ := q
    by_cases hk : k' = k
    · rw [show upsert k v ((k', v') :: rest) = (k, v) :: rest by simp [upsert, hk]] at h
      rcases List.mem_cons.mp h with h | h
      · exact Or.inl h
      · exact Or.inr (List.mem_cons_of_mem _ h)
    · rw [show upsert k v ((k', v') :: rest) = (k', v') :: upsert k v rest
            by simp [upsert, hk]] at h
      rcases List.mem_cons.mp h with h | h
      · exact Or.inr (by rw [h]; exact List.mem_cons_self _ _)
      · rcases ih h with h2 | h2
        · exact Or.inl h2
        · exact Or.inr (List.mem_cons_of_mem _ h2)

theorem alookup_upsert_isSome {k : String} {res : List (String × α)}
    (h : alookup k res ≠ none) (k' : String) (v : α) :
    alookup k (upsert k' v res) ≠ none := by
  by_cases hk : k' = k
  · subst hk
    simp [alookup_upsert_self]
  · rwa [alookup_upsert_ne hk]

/-! ### Character-class and digit-run lemmas -/

theorem char_ne_of_isDigit {c x : Char} (h : isDigit c = true) (hx : isDigit x = false) :
    c ≠ x := by
  intro he
  subst he
  rw [h] at hx
  exact Bool.noConfusion hx

theorem pyWs_false_of_isDigit {c : Char} (h : isDigit c = true) : pyWs c = false := by
  cases hw : pyWs c
  · rfl
  · exfalso
    simp only [pyWs, Bool.or_eq_true, decide_eq_true_eq] at hw
    rcases hw with ((((h1 | h1) | h1) | h1) | h1) | h1 <;> subst h1 <;>
      exact absurd h (by decide)

theorem toLowerAscii_of_isDigit {c : Char} (h : isDigit c = true) : toLowerAscii c = c := by
  unfold toLowerAscii
  rw [if_neg]
  rintro ⟨h1, h2⟩
  simp only [isDigit, Bool.and_eq_true, decide_eq_true_eq] at h
  exact absurd (le_trans h1 h.2) (by decide)

/-- Stopping condition after a digitpart: the rest is empty or starts with a
character that continues neither a digit run nor an underscore separator. -/
def stopOk (rest : List Char) : Prop :=
  match rest with
  | [] => True
  | c :: _ => isDigit c = false ∧ c ≠ '_'

/-- Stopping condition after a whole mantissa: additionally not a dot. -/
def stopNum (rest : List Char) : Prop :=
  match rest with
  | [] => True
  | c :: _ => isDigit c = false ∧ c ≠ '_' ∧ c ≠ '.'

theorem stopOk_of_stopNum {rest : List Char} (h : stopNum rest) : stopOk rest := by
  cases rest with
  | nil => trivial
  | cons c r => exact ⟨h.1, h.2.1⟩

theorem digitsCont_stop {c : Char} {r : List Char} (h1 : isDigit c = false) (h2 : c ≠ '_')
    (v n : Nat) : digitsCont (c :: r) v n = (v, n, c :: r) := by
  rw [digitsCont.eq_def]
  simp [h1, h2]

theorem digitsCont_digit {c : Char} (h : isDigit c = true) (r : List Char) (v n : Nat) :
    digitsCont (c :: r) v n = digitsCont r (10 * v + digVal c) (n + 1) := by
  rw [digitsCont.eq_def]
  simp [h]

theorem digitsCont_append {ds : List Char} (hds : ∀ c ∈ ds, isDigit c = true)
    {rest : List Char} (hrest : stopOk rest) :
    ∀ v n, digitsCont (ds ++ rest) v n =
      (ds.foldl (fun a c => 10 * a + digVal c) v, n + ds.length, rest) := by
  induction ds with
  | nil =>
    intro v n
    cases rest with
    | nil => rfl
    | cons c r =>
      obtain ⟨h1, h2⟩ := hrest
      simpa using digitsCont_stop h1 h2 v n
  | cons d ds ih =>
    intro v n
    have hd := hds d (List.mem_cons_self _ _)
    rw [List.cons_append, digitsCont_digit hd,
      ih (fun c hc => hds c (List.mem_cons_of_mem _ hc))]
    simp only [List.foldl_cons, Prod.mk.injEq, List.length_cons, true_and, and_true]
    omega

theorem headDigits_append {ds rest : List Char} (hds : ∀ c ∈ ds, isDigit c = true)
    (hstop : stopOk rest) :
    headDigits (ds ++ rest) = (digitsVal ds, ds.length, rest) := by
  cases ds with
  | nil =>
    cases rest with
    | nil => rfl
    | cons c r => simp [headDigits, hstop.1, digitsVal]
  | cons d ds' =>
    have hd := hds d (List.mem_cons_self _ _)
    rw [List.cons_append,
      show headDigits (d :: (ds' ++ rest)) = digitsCont (d :: (ds' ++ rest)) 0 0
        by simp [headDigits, hd],
      show d :: (ds' ++ rest) = (d :: ds') ++ rest from rfl,
      digitsCont_append hds hstop]
    simp [digitsVal]

theorem parseNumber_int {ds r : List Char} (hne : ds ≠ [])
    (hds : ∀ c ∈ ds, isDigit c = true) (hrest : stopNum r) :
    parseNumber (ds ++ r) = some ((digitsVal ds : ℚ), r) := by
  have hlen : ds.length ≠ 0 := fun h => hne (List.length_eq_zero.mp h)
  simp only [parseNumber, headDigits_append hds (stopOk_of_stopNum hrest)]
  cases r with
  | nil => simp [hlen]
  | cons c r => simp [hrest.2.2, hlen]

theorem parseNumber_frac {ds ds2 r : List Char} (hds : ∀ c ∈ ds, isDigit c = true)
    (hne2 : ds2 ≠ []) (hds2 : ∀ c ∈ ds2, isDigit c = true) (hrest : stopNum r) :
    parseNumber (ds ++ '.' :: (ds2 ++ r)) =
      some ((digitsVal ds : ℚ) + (digitsVal ds2 : ℚ) / (10 : ℚ) ^ ds2.length, r) := by
  have hlen2 : ds2.length ≠ 0 := fun h => hne2 (List.length_eq_zero.mp h)
  have h1 : stopOk ('.' :: (ds2 ++ r)) := ⟨by decide, by decide⟩
  simp only [parseNumber, headDigits_append hds h1,
    headDigits_append hds2 (stopOk_of_stopNum hrest)]
  simp [hlen2]

/-- A plain decimal numeral: a nonempty digit run, or a digit run (possibly
empty), a dot, and a nonempty digit run. -/
def Numeral (l : List Char) : Prop :=
  (l ≠ [] ∧ ∀ c ∈ l, isDigit c = true) ∨
  ∃ ds ds2, (∀ c ∈ ds, isDigit c = true) ∧ ds2 ≠ [] ∧ (∀ c ∈ ds2, isDigit c = true) ∧
    l = ds ++ '.' :: ds2

/-- The mathematical value of a decimal numeral: integer part plus fraction
part scaled by the number of fraction digits. -/
def numeralVal (l : List Char) : ℚ :=
  match l.dropWhile (fun c => c ≠ '.') with
  | _ :: ds2 => (digitsVal (l.takeWhile (fun c => c ≠ '.')) : ℚ) +
      (digitsVal ds2 : ℚ) / (10 : ℚ) ^ ds2.length
  | [] => (digitsVal l : ℚ)

theorem takeWhile_all {p : Char → Bool} : ∀ {l : List Char}, (∀ c ∈ l, p c = true) →
    l.takeWhile p = l := by
  intro l
  induction l with
  | nil => intro _; rfl
  | cons c cs ih =>
    intro h
    rw [List.takeWhile_cons, if_pos (h c (List.mem_cons_self _ _)),
      ih (fun x hx => h x (List.mem_cons_of_mem _ hx))]

theorem dropWhile_all {p : Char → Bool} : ∀ {l : List Char}, (∀ c ∈ l, p c = true) →
    l.dropWhile p = [] := by
  intro l
  induction l with
  | nil => intro _; rfl
  | cons c cs ih =>
    intro h
    rw [List.dropWhile_cons, if_pos (h c (List.mem_cons_self _ _))]
    exact ih (fun x hx => h x (List.mem_cons_of_mem _ hx))

theorem dropWhile_none {p : Char → Bool} : ∀ {l : List Char}, (∀ c ∈ l, p c = false) →
    l.dropWhile p = l := by
  intro l
  cases l with
  | nil => intro _; rfl
  | cons c cs =>
    intro h
    rw [List.dropWhile_cons, if_neg (by simp [h c (List.mem_cons_self _ _)])]

theorem takeWhile_append_stop {p : Char → Bool} {ds : List Char} {b : Char} {r : List Char}
    (h : ∀ c ∈ ds, p c = true) (h0 : p b = false) :
    (ds ++ b :: r).takeWhile p = ds ∧ (ds ++ b :: r).dropWhile p = b :: r := by
  induction ds with
  | nil =>
    constructor
    · rw [List.nil_append, List.takeWhile_cons, if_neg (by simp [h0])]
    · rw [List.nil_append, List.dropWhile_cons, if_neg (by simp [h0])]
  | cons d ds ih =>
    obtain ⟨ih1, ih2⟩ := ih (fun x hx => h x (List.mem_cons_of_mem _ hx))
    have hd := h d (List.mem_cons_self _ _)
    constructor
    · rw [List.cons_append, List.takeWhile_cons, if_pos hd, ih1]
    · rw [List.cons_append, List.dropWhile_cons, if_pos hd, ih2]

theorem numeralVal_int {l : List Char} (h : ∀ c ∈ l, isDigit c = true) :
    numeralVal l = (digitsVal l : ℚ) := by
  have hall : ∀ c ∈ l, (fun c => decide (c ≠ '.')) c = true := by
    intro c hc
    simpa using char_ne_of_isDigit (h c hc) (by decide)
  unfold numeralVal
  rw [dropWhile_all hall]

theorem numeralVal_frac {ds ds2 : List Char} (hds : ∀ c ∈ ds, isDigit c = true) :
    numeralVal (ds ++ '.' :: ds2) =
      (digitsVal ds : ℚ) + (digitsVal ds2 : ℚ) / (10 : ℚ) ^ ds2.length := by
  have hall : ∀ c ∈ ds, (fun c => decide (c ≠ '.')) c = true := by
    intro c hc
    simpa using char_ne_of_isDigit (hds c hc) (by decide)
  obtain ⟨ht, hd⟩ := takeWhile_append_stop (p := fun c => decide (c ≠ '.'))
    (b := '.') (r := ds2) hall (by simp)
  unfold numeralVal
  rw [hd, ht]

theorem stripWs_eq_self {l : List Char} (h : ∀ c ∈ l, pyWs c = false) : stripWs l = l := by
  unfold stripWs
  rw [dropWhile_none h, dropWhile_none (fun c hc => h c (List.mem_reverse.mp hc)),
    List.reverse_reverse]

theorem readSign_id {c : Char} {r : List Char} (h1 : c ≠ '+') (h2 : c ≠ '-') :
    readSign (c :: r) = (false, c :: r) := by
  simp [readSign, h1, h2]

/-- Characters of a numeral are digits or the dot. -/
theorem numeral_chars {l : List Char} (h : Numeral l) :
    ∀ c ∈ l, isDigit c = true ∨ c = '.' := by
  rcases h with ⟨_, hall⟩ | ⟨ds, ds2, hds, _, hds2, rfl⟩
  · exact fun c hc => Or.inl (hall c hc)
  · intro c hc
    rcases List.mem_append.mp hc with hc | hc
    · exact Or.inl (hds c hc)
    · rcases List.mem_cons.mp hc with rfl | hc
      · exact Or.inr rfl
      · exact Or.inl (hds2 c hc)

theorem numeral_ne_nil {l : List Char} (h : Numeral l) : l ≠ [] := by
  rcases h with ⟨hne, _⟩ | ⟨ds, ds2, _, hne2, _, rfl⟩
  · exact hne
  · intro he
    cases ds <;> simp at he

/-- On a numeral, `parseNumber` consumes everything and returns its value. -/
theorem parseNumber_numeral {l : List Char} (h : Numeral l) :
    parseNumber l = some (numeralVal l, []) := by
  rcases h with ⟨hne, hall⟩ | ⟨ds, ds2, hds, hne2, hds2, rfl⟩
  · have := parseNumber_int (r := []) hne hall trivial
    rw [List.append_nil] at this
    rw [this, numeralVal_int hall]
  · have := parseNumber_frac (r := []) hds hne2 hds2 trivial
    rw [List.append_nil] at this
    rw [this, numeralVal_frac hds]

/-- On a numeral, the modelled `float()` succeeds with the numeral's value. -/
theorem pyFloat_numeral {l : List Char} (h : Numeral l) :
    pyFloatOfChars l = some (.finite (numeralVal l)) := by
  have hchars := numeral_chars h
  have hne := numeral_ne_nil h
  have hstrip : stripWs l = l := by
    refine stripWs_eq_self (fun c hc => ?_)
    rcases hchars c hc with hd | rfl
    · exact pyWs_false_of_isDigit hd
    · decide
  obtain ⟨c0, l', rfl⟩ : ∃ c0 l', l = c0 :: l' := by
    cases l with
    | nil => exact absurd rfl hne
    | cons a as => exact ⟨a, as, rfl⟩
  have hc0 := hchars c0 (List.mem_cons_self _ _)
  have hsign : readSign (c0 :: l') = (false, c0 :: l') := by
    rcases hc0 with hd | rfl
    · exact readSign_id (char_ne_of_isDigit hd (by decide)) (char_ne_of_isDigit hd (by decide))
    · exact readSign_id (by decide) (by decide)
  have hlow : toLowerAscii c0 ≠ 'i' ∧ toLowerAscii c0 ≠ 'n' := by
    rcases hc0 with hd | rfl
    · rw [toLowerAscii_of_isDigit hd]
      exact ⟨char_ne_of_isDigit hd (by decide), char_ne_of_isDigit hd (by decide)⟩
    · exact ⟨by decide, by decide⟩
  simp only [pyFloatOfChars, hstrip, hsign, List.map_cons]
  rw [if_neg, if_neg]
  · rw [parseNumber_numeral h]
    simp [parseExp]
  · intro he
    rw [List.cons.injEq] at he
    exact hlow.2 he.1
  · rintro (he | he) <;> rw [List.cons.injEq] at he <;> exact hlow.1 he.1

/-! ### Speed-normalizer lemmas -/

theorem hashcatMultipliers_of_digit {c : Char} (h : isDigit c = true) :
    hashcatMultipliers c = none := by
  unfold hashcatMultipliers
  rw [if_neg (char_ne_of_isDigit h (by decide)), if_neg (char_ne_of_isDigit h (by decide)),
    if_neg (char_ne_of_isDigit h (by decide)), if_neg (char_ne_of_isDigit h (by decide))]

theorem johnMultipliers_of_digit {c : Char} (h : isDigit c = true) :
    johnMultipliers c = none := by
  unfold johnMultipliers
  rw [if_neg (char_ne_of_isDigit h (by decide)), if_neg (char_ne_of_isDigit h (by decide)),
    if_neg (char_ne_of_isDigit h (by decide))]

theorem getLast?_mem : ∀ (l : List Char), l ≠ [] → ∃ c, l.getLast? = some c ∧ c ∈ l := by
  intro l
  induction l with
  | nil => intro h; exact absurd rfl h
  | cons a as ih =>
    intro _
    cases as with
    | nil => exact ⟨a, rfl, List.mem_singleton.mpr rfl⟩
    | cons b bs =>
      obtain ⟨c, hc, hm⟩ := ih (by simp)
      exact ⟨c, by rw [List.getLast?_cons_cons, hc], List.mem_cons_of_mem _ hm⟩

theorem numeral_getLast_digit {l : List Char} (h : Numeral l) :
    ∃ c, l.getLast? = some c ∧ isDigit c = true := by
  rcases h with ⟨hne, hall⟩ | ⟨ds, ds2, hds, hne2, hds2, rfl⟩
  · obtain ⟨c, hc, hm⟩ := getLast?_mem l hne
    exact ⟨c, hc, hall c hm⟩
  · obtain ⟨c, hc, hm⟩ := getLast?_mem ds2 hne2
    refine ⟨c, ?_, hds2 c hm⟩
    rw [List.getLast?_append]
    cases ds2 with
    | nil => exact absurd rfl hne2
    | cons b bs =>
      rw [List.getLast?_cons_cons, hc]
      rfl

theorem parse_hashcat_speed_numeral {l : List Char} (h : Numeral l) :
    parse_hashcat_speed (String.mk l) = .finite (numeralVal l) := by
  obtain ⟨c, hlast, hdig⟩ := numeral_getLast_digit h
  simp only [parse_hashcat_speed, show (String.mk l).data = l from rfl, hlast,
    hashcatMultipliers_of_digit hdig, pyFloat_numeral h]

theorem parse_john_speed_numeral {l : List Char} (h : Numeral l) :
    parse_john_speed (String.mk l) = .finite (numeralVal l) := by
  obtain ⟨c, hlast, hdig⟩ := numeral_getLast_digit h
  simp only [parse_john_speed, show (String.mk l).data = l from rfl, hlast,
    johnMultipliers_of_digit hdig, pyFloat_numeral h]

theorem parse_hashcat_speed_suffix {l : List Char} (h : Numeral l) {c : Char} {m : ℚ}
    (hm : hashcatMultipliers c = some m) :
    parse_hashcat_speed (String.mk (l ++ [c])) = .finite (numeralVal l * m) := by
  simp only [parse_hashcat_speed, show (String.mk (l ++ [c])).data = l ++ [c] from rfl,
    List.getLast?_concat, hm, List.dropLast_concat, pyFloat_numeral h]
  rfl

theorem parse_john_speed_suffix {l : List Char} (h : Numeral l) {c : Char} {m : ℚ}
    (hm : johnMultipliers c = some m) :
    parse_john_speed (String.mk (l ++ [c])) = .finite (numeralVal l * m) := by
  simp only [parse_john_speed, show (String.mk (l ++ [c])).data = l ++ [c] from rfl,
    List.getLast?_concat, hm, List.dropLast_concat, pyFloat_numeral h]
  rfl

theorem parse_hashcat_speed_fail_nosuffix {s : String}
    (h1 : ∀ c, s.data.getLast? = some c → hashcatMultipliers c = none)
    (h2 : pyFloatOfChars s.data = none) : parse_hashcat_speed s = .finite 0 := by
  unfold parse_hashcat_speed
  cases hL : s.data.getLast? with
  | none => rfl
  | some c => simp only [h1 c hL, h2]

theorem parse_hashcat_speed_fail_suffix {s : String} {c : Char} {m : ℚ}
    (hL : s.data.getLast? = some c) (hm : hashcatMultipliers c = some m)
    (h2 : pyFloatOfChars s.data.dropLast = none) : parse_hashcat_speed s = .finite 0 := by
  simp only [parse_hashcat_speed, hL, hm, h2]

theorem parse_john_speed_fail_nosuffix {s : String}
    (h1 : ∀ c, s.data.getLast? = some c → johnMultipliers c = none)
    (h2 : pyFloatOfChars s.data = none) : parse_john_speed s = .finite 0 := by
  unfold parse_john_speed
  cases hL : s.data.getLast? with
  | none => rfl
  | some c => simp only [h1 c hL, h2]

theorem parse_john_speed_fail_suffix {s : String} {c : Char} {m : ℚ}
    (hL : s.data.getLast? = some c) (hm : johnMultipliers c = some m)
    (h2 : pyFloatOfChars s.data.dropLast = none) : parse_john_speed s = .finite 0 := by
  simp only [parse_john_speed, hL, hm, h2]

/-! ### Hashcat benchmark-parser lemmas -/

theorem findSpeedPair_none {ts : List (List Char)} (h : ∀ t ∈ ts, containsSub hsPat t = false) :
    ∀ prev, findSpeedPair prev ts = none := by
  induction ts with
  | nil => intro prev; rfl
  | cons t ts ih =>
    intro prev
    rw [findSpeedPair, if_neg (by simp [h t (List.mem_cons_self _ _)])]
    exact ih (fun x hx => h x (List.mem_cons_of_mem _ hx)) t

theorem findSpeedPair_through {B : List (List Char)} {v u : List Char}
    (hB : ∀ t ∈ B, containsSub hsPat t = false) (hv : containsSub hsPat v = false)
    (hu : containsSub hsPat u = true) (C : List (List Char)) :
    ∀ prev, findSpeedPair prev (B ++ v :: u :: C) = some (v, u) := by
  induction B with
  | nil =>
    intro prev
    rw [List.nil_append, findSpeedPair, if_neg (by simp [hv]), findSpeedPair, if_pos hu]
  | cons b B ih =>
    intro prev
    rw [List.cons_append, findSpeedPair, if_neg (by simp [hB b (List.mem_cons_self _ _)])]
    exact ih (fun x hx => hB x (List.mem_cons_of_mem _ hx)) b

theorem findSpeedPair_isSome {ts : List (List Char)} {u : List Char} (hu : u ∈ ts)
    (hc : containsSub hsPat u = true) : ∀ prev, ∃ pr, findSpeedPair prev ts = some pr := by
  induction ts with
  | nil => exact absurd hu (List.not_mem_nil u)
  | cons t ts ih =>
    intro prev
    by_cases ht : containsSub hsPat t = true
    · exact ⟨(prev, t), by rw [findSpeedPair, if_pos ht]⟩
    · rcases List.mem_cons.mp hu with rfl | hu2
      · exact absurd hc ht
      · obtain ⟨pr, hpr⟩ := ih hu2 t
        exact ⟨pr, by rw [findSpeedPair, if_neg ht, hpr]⟩

theorem processTokens_nowrite_noHs {ts : List (List Char)}
    (h : ∀ t ∈ ts, containsSub hsPat t = false) :
    ∀ res, processTokens res ts = res := by
  induction ts with
  | nil => intro res; rfl
  | cons t ts ih =>
    intro res
    have hupd : tokenUpdate t ts = none := by
      unfold tokenUpdate
      cases hash_types (String.mk t) with
      | none => rfl
      | some alg => rw [findSpeedPair_none (fun x hx => h x (List.mem_cons_of_mem _ hx)) t]
    rw [processTokens, hupd]
    exact ih (fun x hx => h x (List.mem_cons_of_mem _ hx)) res

theorem processTokens_nowrite_nocode {ts : List (List Char)}
    (h : ∀ t ∈ ts, hash_types (String.mk t) = none) :
    ∀ res, processTokens res ts = res := by
  induction ts with
  | nil => intro res; rfl
  | cons t ts ih =>
    intro res
    have hupd : tokenUpdate t ts = none := by
      unfold tokenUpdate
      rw [h t (List.mem_cons_self _ _)]
    rw [processTokens, hupd]
    exact ih (fun x hx => h x (List.mem_cons_of_mem _ hx)) res

theorem processTokens_keeps {k : String} {ts : List (List Char)} :
    ∀ {res : List (String × HCMetric)}, alookup k res ≠ none →
      alookup k (processTokens res ts) ≠ none := by
  induction ts with
  | nil => intro res h; exact h
  | cons t ts ih =>
    intro res h
    rw [processTokens]
    cases hupd : tokenUpdate t ts with
    | none => exact ih (by simpa [applyUpd] using h)
    | some kv =>
      obtain ⟨k', v'⟩ := kv
      exact ih (by simpa [applyUpd] using alookup_upsert_isSome h k' v')

/-- The tokens of the Grammar-A exemplar: mode code `"0"`, speed `"12.4"`,
unit `"MH/s"`. -/
def tok0 : List Char := ['0']

/-- The `"12.4"` token. -/
def tok124 : List Char := ['1', '2', '.', '4']

/-- The `"MH/s"` token. -/
def tokMHs : List Char := ['M', 'H', '/', 's']

/-- The metric the hashcat parser records for the pair `("12.4", "MH/s")`:
the rate is `parse_hashcat_speed "12.4"` and the formatted string is
`"12.4 MH/s"`. -/
def md5Metric : HCMetric :=
  ⟨parse_hashcat_speed (String.mk tok124), String.mk (tok124 ++ ' ' :: tokMHs)⟩

theorem md5_inv {B C : List (List Char)}
    (hB : ∀ t ∈ B, containsSub hsPat t = false)
    (hC : ∀ t ∈ C, containsSub hsPat t = false) :
    ∀ res, alookup "MD5" res = some md5Metric →
      alookup "MD5" (processTokens res (B ++ tok124 :: tokMHs :: C)) = some md5Metric := by
  induction B with
  | nil =>
    intro res hres
    rw [List.nil_append, processTokens,
      show tokenUpdate tok124 (tokMHs :: C) = none by
        unfold tokenUpdate
        rw [show hash_types (String.mk tok124) = none from rfl],
      show applyUpd res none = res from rfl,
      processTokens,
      show tokenUpdate tokMHs C = none by
        unfold tokenUpdate
        rw [show hash_types (String.mk tokMHs) = none from rfl],
      show applyUpd res none = res from rfl,
      processTokens_nowrite_noHs hC res]
    exact hres
  | cons b B ih =>
    intro res hres
    rw [List.cons_append, processTokens]
    have hB' : ∀ t ∈ B, containsSub hsPat t = false :=
      fun x hx => hB x (List.mem_cons_of_mem _ hx)
    cases hht : hash_types (String.mk b) with
    | none =>
      rw [show tokenUpdate b (B ++ tok124 :: tokMHs :: C) = none by
        unfold tokenUpdate; rw [hht]]
      exact ih hB' res hres
    | some alg =>
      have hfind : findSpeedPair b (B ++ tok124 :: tokMHs :: C) = some (tok124, tokMHs) :=
        findSpeedPair_through hB' (by decide) (by decide) C b
      rw [show tokenUpdate b (B ++ tok124 :: tokMHs :: C) = some (alg, md5Metric) by
        unfold tokenUpdate
        rw [hht, hfind]
        rfl]
      refine ih hB' _ ?_
      by_cases halg : alg = "MD5"
      · subst halg
        simp [applyUpd, alookup_upsert_self]
      · simpa [applyUpd, alookup_upsert_ne halg] using hres

theorem md5_main {B C : List (List Char)}
    (hB : ∀ t ∈ B, containsSub hsPat t = false)
    (hC : ∀ t ∈ C, containsSub hsPat t = false) :
    ∀ (A : List (List Char)) res,
      alookup "MD5" (processTokens res (A ++ tok0 :: (B ++ tok124 :: tokMHs :: C))) =
        some md5Metric := by
  intro A
  induction A with
  | nil =>
    intro res
    have hfind : findSpeedPair tok0 (B ++ tok124 :: tokMHs :: C) = some (tok124, tokMHs) :=
      findSpeedPair_through hB (by decide) (by decide) C tok0
    rw [List.nil_append, processTokens,
      show tokenUpdate tok0 (B ++ tok124 :: tokMHs :: C) = some ("MD5", md5Metric) by
        unfold tokenUpdate
        rw [show hash_types (String.mk tok0) = some "MD5" from rfl, hfind]
        rfl]
    exact md5_inv hB hC _ (by simp [applyUpd, alookup_upsert_self])
  | cons a A ih =>
    intro res
    rw [List.cons_append, processTokens]
    exact ih _

theorem foldl_preserve_hashcat {k : String} {L : List (List Char)}
    (h : ∀ l ∈ L, ∀ res, alookup k (processLine res l) = alookup k res) :
    ∀ res, alookup k (L.foldl processLine res) = alookup k res := by
  induction L with
  | nil => intro res; rfl
  | cons l L ih =>
    intro res
    rw [List.foldl_cons, ih (fun x hx => h x (List.mem_cons_of_mem _ hx)),
      h l (List.mem_cons_self _ _) res]

theorem foldl_preserve_john {k : String} {L : List (List Char)}
    (h : ∀ l ∈ L, ∀ res, alookup k (processJohnLine res l) = alookup k res) :
    ∀ res, alookup k (L.foldl processJohnLine res) = alookup k res := by
  induction L with
  | nil => intro res; rfl
  | cons l L ih =>
    intro res
    rw [List.foldl_cons, ih (fun x hx => h x (List.mem_cons_of_mem _ hx)),
      h l (List.mem_cons_self _ _) res]

/-! ### Skip lemmas: lines that do not match a grammar contribute nothing -/

theorem processLine_skip {line : List Char} (h : containsSub hsPat line = false)
    (res : List (String × HCMetric)) : processLine res line = res := by
  rw [processLine, if_neg (by simp [h])]

theorem processLine_skip_nocode {line : List Char}
    (h : ∀ t ∈ splitWs line, hash_types (String.mk t) = none)
    (res : List (String × HCMetric)) : processLine res line = res := by
  unfold processLine
  by_cases hc : containsSub hsPat line = true
  · rw [if_pos hc]
    exact processTokens_nowrite_nocode h res
  · rw [if_neg hc]

theorem processJohnLine_skip_nocs {line : List Char}
    (h : containsSub csPat (line.map toLowerAscii) = false)
    (res : List (String × JMetric)) : processJohnLine res line = res := by
  rw [processJohnLine, show johnLineUpdate line = none by
    rw [johnLineUpdate, if_neg (by simp [h])]]
  rfl

theorem processJohnLine_skip_nocolon {line : List Char} (h : splitFirstColon line = none)
    (res : List (String × JMetric)) : processJohnLine res line = res := by
  rw [processJohnLine, show johnLineUpdate line = none by simp [johnLineUpdate, h]]
  rfl

theorem processJohnLine_skip_nomatch {line p0 p1 : List Char}
    (hsplit : splitFirstColon line = some (p0, p1))
    (h : johnSpeedSearch (stripWs p1) = none)
    (res : List (String × JMetric)) : processJohnLine res line = res := by
  rw [processJohnLine, show johnLineUpdate line = none by simp [johnLineUpdate, hsplit, h]]
  rfl

/-! ### John benchmark-parser lemmas -/

theorem mem_takeWhile {p : Char → Bool} : ∀ {l : List Char} {c : Char},
    c ∈ l.takeWhile p → p c = true := by
  intro l
  induction l with
  | nil =>
    intro c h
    rw [List.takeWhile_nil] at h
    exact absurd h (List.not_mem_nil c)
  | cons a as ih =>
    intro c h
    rw [List.takeWhile_cons] at h
    by_cases hp : p a = true
    · rw [if_pos hp] at h
      rcases List.mem_cons.mp h with rfl | h2
      · exact hp
      · exact ih h2
    · rw [if_neg hp] at h
      exact absurd h (List.not_mem_nil c)

theorem trySuffix_shape {pre cs g1 g0 : List Char} (h : trySuffix pre cs = some (g1, g0)) :
    g1 = pre ∨ ∃ c, isKMGi c = true ∧ g1 = pre ++ [c] := by
  cases cs with
  | nil =>
    simp only [trySuffix] at h
    rw [show tryUnit [] = none from rfl] at h
    exact absurd h (by simp)
  | cons c rest =>
    simp only [trySuffix] at h
    by_cases hk : isKMGi c = true
    · rw [if_pos hk] at h
      cases h1 : tryUnit rest with
      | some consumed =>
        simp only [h1, Option.some.injEq, Prod.mk.injEq] at h
        exact Or.inr ⟨c, hk, h.1.symm⟩
      | none =>
        simp only [h1] at h
        cases h2 : tryUnit (c :: rest) with
        | some consumed =>
          simp only [h2, Option.some.injEq, Prod.mk.injEq] at h
          exact Or.inl h.1.symm
        | none =>
          simp only [h2] at h
          exact absurd h (by simp)
    · rw [if_neg hk] at h
      cases h2 : tryUnit (c :: rest) with
      | some consumed =>
        simp only [h2, Option.some.injEq, Prod.mk.injEq] at h
        exact Or.inl h.1.symm
      | none =>
        simp only [h2] at h
        exact absurd h (by simp)

theorem tryFrac_shape {ds rest1 g1 g0 : List Char} (hds : ∀ c ∈ ds, isDigit c = true)
    (h : tryFrac ds rest1 = some (g1, g0)) :
    ∃ l, Numeral l ∧ (g1 = l ∨ ∃ c, isKMGi c = true ∧ g1 = l ++ [c]) := by
  cases rest1 with
  | nil =>
    simp only [tryFrac] at h
    exact absurd h (by simp)
  | cons c r2 =>
    simp only [tryFrac] at h
    by_cases hc : c = '.'
    · rw [if_pos hc] at h
      by_cases hds2 : r2.takeWhile isDigit = []
      · rw [if_pos hds2] at h
        exact absurd h (by simp)
      · rw [if_neg hds2] at h
        subst hc
        refine ⟨ds ++ '.' :: r2.takeWhile isDigit,
          Or.inr ⟨ds, r2.takeWhile isDigit, hds, hds2, fun c hc => mem_takeWhile hc, rfl⟩,
          trySuffix_shape h⟩
    · rw [if_neg hc] at h
      exact absurd h (by simp)

theorem tryMatchAt_shape {cs g1 g0 : List Char} (h : tryMatchAt cs = some (g1, g0)) :
    ∃ l, Numeral l ∧ (g1 = l ∨ ∃ c, isKMGi c = true ∧ g1 = l ++ [c]) := by
  simp only [tryMatchAt] at h
  by_cases hds : cs.takeWhile isDigit = []
  · rw [if_pos hds] at h
    exact absurd h (by simp)
  · rw [if_neg hds] at h
    have hdig : ∀ c ∈ cs.takeWhile isDigit, isDigit c = true := fun c hc => mem_takeWhile hc
    cases hf : tryFrac (cs.takeWhile isDigit) (cs.drop (cs.takeWhile isDigit).length) with
    | some r =>
      simp only [hf, Option.some.injEq] at h
      subst h
      exact tryFrac_shape hdig hf
    | none =>
      simp only [hf] at h
      exact ⟨cs.takeWhile isDigit, Or.inl ⟨hds, hdig⟩, trySuffix_shape h⟩

theorem johnSpeedSearch_shape : ∀ {cs g1 g0 : List Char},
    johnSpeedSearch cs = some (g1, g0) →
    ∃ l, Numeral l ∧ (g1 = l ∨ ∃ c, isKMGi c = true ∧ g1 = l ++ [c]) := by
  intro cs
  induction cs with
  | nil => intro g1 g0 h; exact absurd h (by simp [johnSpeedSearch])
  | cons c rest ih =>
    intro g1 g0 h
    simp only [johnSpeedSearch] at h
    cases hm : tryMatchAt (c :: rest) with
    | some r =>
      simp only [hm, Option.some.injEq] at h
      subst h
      exact tryMatchAt_shape hm
    | none =>
      simp only [hm] at h
      exact ih h

/-- A numeral followed by one junk character (not a digit, underscore, dot,
exponent marker or whitespace) fails `float()` conversion. -/
theorem pyFloat_numeral_tail {l : List Char} (h : Numeral l) {c : Char}
    (hd : isDigit c = false) (hu : c ≠ '_') (hdot : c ≠ '.') (he : c ≠ 'e') (hE : c ≠ 'E')
    (hw : pyWs c = false) : pyFloatOfChars (l ++ [c]) = none := by
  have hchars := numeral_chars h
  have hne := numeral_ne_nil h
  have hstop : stopNum [c] := ⟨hd, hu, hdot⟩
  obtain ⟨q, hq⟩ : ∃ q, parseNumber (l ++ [c]) = some (q, [c]) := by
    rcases h with ⟨hne2, hall⟩ | ⟨ds, ds2, hds, hne2, hds2, rfl⟩
    · exact ⟨_, parseNumber_int hne2 hall hstop⟩
    · have hq2 := parseNumber_frac (r := [c]) hds hne2 hds2 hstop
      refine ⟨(digitsVal ds : ℚ) + (digitsVal ds2 : ℚ) / (10 : ℚ) ^ ds2.length, ?_⟩
      rw [show (ds ++ '.' :: ds2) ++ [c] = ds ++ '.' :: (ds2 ++ [c]) by simp]
      exact hq2
  obtain ⟨c0, l', rfl⟩ : ∃ c0 l', l = c0 :: l' := by
    cases l with
    | nil => exact absurd rfl hne
    | cons a as => exact ⟨a, as, rfl⟩
  rw [List.cons_append] at hq
  have hc0 := hchars c0 (List.mem_cons_self _ _)
  have hstrip : stripWs (c0 :: (l' ++ [c])) = c0 :: (l' ++ [c]) := by
    rw [show c0 :: (l' ++ [c]) = (c0 :: l') ++ [c] from rfl]
    refine stripWs_eq_self (fun x hx => ?_)
    rcases List.mem_append.mp hx with hx | hx
    · rcases hchars x hx with hd2 | rfl
      · exact pyWs_false_of_isDigit hd2
      · decide
    · rw [List.mem_singleton.mp hx]
      exact hw
  have hsign : readSign (c0 :: (l' ++ [c])) = (false, c0 :: (l' ++ [c])) := by
    rcases hc0 with hd2 | rfl
    · exact readSign_id (char_ne_of_isDigit hd2 (by decide)) (char_ne_of_isDigit hd2 (by decide))
    · exact readSign_id (by decide) (by decide)
  have hlow : toLowerAscii c0 ≠ 'i' ∧ toLowerAscii c0 ≠ 'n' := by
    rcases hc0 with hd2 | rfl
    · rw [toLowerAscii_of_isDigit hd2]
      exact ⟨char_ne_of_isDigit hd2 (by decide), char_ne_of_isDigit hd2 (by decide)⟩
    · exact ⟨by decide, by decide⟩
  have hinf : ¬((c0 :: (l' ++ [c])).map toLowerAscii = ['i', 'n', 'f'] ∨
      (c0 :: (l' ++ [c])).map toLowerAscii = ['i', 'n', 'f', 'i', 'n', 'i', 't', 'y']) := by
    rintro (h2 | h2) <;> rw [List.map_cons, List.cons.injEq] at h2 <;> exact hlow.1 h2.1
  have hnan : ¬((c0 :: (l' ++ [c])).map toLowerAscii = ['n', 'a', 'n']) := by
    intro h2
    rw [List.map_cons, List.cons.injEq] at h2
    exact hlow.2 h2.1
  have hexp : parseExp [c] = some (0, [c]) := by
    simp only [parseExp]
    rw [if_neg]
    rintro (rfl | rfl)
    · exact he rfl
    · exact hE rfl
  simp only [pyFloatOfChars, List.cons_append, hstrip, hsign, if_neg hinf, if_neg hnan, hq,
    hexp]
  simp

theorem johnMultipliers_pos {c : Char} {m : ℚ} (h : johnMultipliers c = some m) : 0 < m := by
  unfold johnMultipliers at h
  by_cases h1 : c = 'K'
  · rw [if_pos h1] at h
    rw [← Option.some.inj h]
    norm_num
  · rw [if_neg h1] at h
    by_cases h2 : c = 'M'
    · rw [if_pos h2] at h
      rw [← Option.some.inj h]
      norm_num
    · rw [if_neg h2] at h
      by_cases h3 : c = 'G'
      · rw [if_pos h3] at h
        rw [← Option.some.inj h]
        norm_num
      · rw [if_neg h3] at h
        exact absurd h (by simp)

theorem numeralVal_nonneg {l : List Char} (h : Numeral l) : 0 ≤ numeralVal l := by
  rcases h with ⟨_, hall⟩ | ⟨ds, ds2, hds, hne2, hds2, rfl⟩
  · rw [numeralVal_int hall]
    positivity
  · rw [numeralVal_frac hds]
    positivity

/-- Any group-1 string produced by the John speed regex parses to a
non-negative rate: plain or `K`/`M`/`G`-suffixed numerals scale a
non-negative value by a positive multiplier, and a lowercase `k`/`m`/`g`
suffix (matched under IGNORECASE but absent from the case-sensitive table)
makes `float()` fail, yielding `0.0`. -/
theorem parse_john_nonneg_of_search {cs g1 g0 : List Char}
    (h : johnSpeedSearch cs = some (g1, g0)) :
    PyFloat.Nonneg (parse_john_speed (String.mk g1)) := by
  obtain ⟨l, hnum, hcase⟩ := johnSpeedSearch_shape h
  rcases hcase with rfl | ⟨c, hk, rfl⟩
  · rw [parse_john_speed_numeral hnum]
    simpa [PyFloat.Nonneg] using numeralVal_nonneg hnum
  · cases hm : johnMultipliers c with
    | some m =>
      rw [parse_john_speed_suffix hnum hm]
      simpa [PyFloat.Nonneg] using
        mul_nonneg (numeralVal_nonneg hnum) (le_of_lt (johnMultipliers_pos hm))
    | none =>
      have hck : c = 'K' ∨ c = 'M' ∨ c = 'G' ∨ c = 'k' ∨ c = 'm' ∨ c = 'g' := by
        simp only [isKMGi, Bool.or_eq_true, decide_eq_true_eq] at hk
        tauto
      have hc6 : isDigit c = false ∧ c ≠ '_' ∧ c ≠ '.' ∧ c ≠ 'e' ∧ c ≠ 'E' ∧
          pyWs c = false := by
        rcases hck with rfl | rfl | rfl | rfl | rfl | rfl <;>
          exact ⟨by decide, by decide, by decide, by decide, by decide, by decide⟩
      have hfail : pyFloatOfChars (l ++ [c]) = none :=
        pyFloat_numeral_tail hnum hc6.1 hc6.2.1 hc6.2.2.1 hc6.2.2.2.1 hc6.2.2.2.2.1
          hc6.2.2.2.2.2
      rw [parse_john_speed_fail_nosuffix ?h1 ?h2]
      · simp [PyFloat.Nonneg]
      case h1 =>
        intro c2 hc2
        rw [show (String.mk (l ++ [c])).data = l ++ [c] from rfl, List.getLast?_concat] at hc2
        rw [← Option.some.inj hc2]
        exact hm
      case h2 =>
        rw [show (String.mk (l ++ [c])).data = l ++ [c] from rfl]
        exact hfail

theorem johnLineUpdate_nonneg {line : List Char} {k : String} {v : JMetric}
    (h : johnLineUpdate line = some (k, v)) : PyFloat.Nonneg v.speed_cs := by
  unfold johnLineUpdate at h
  by_cases hc : containsSub csPat (line.map toLowerAscii) = true
  · rw [if_pos hc] at h
    cases hs : splitFirstColon line with
    | none =>
      simp only [hs] at h
      exact absurd h (by simp)
    | some pp =>
      obtain ⟨p0, p1⟩ := pp
      simp only [hs] at h
      cases hj : johnSpeedSearch (stripWs p1) with
      | none =>
        simp only [hj] at h
        exact absurd h (by simp)
      | some gg =>
        obtain ⟨g1, g0⟩ := gg
        simp only [hj, Option.some.injEq] at h
        cases h
        exact parse_john_nonneg_of_search hj
  · rw [if_neg hc] at h
    exact absurd h (by simp)

theorem john_entries_nonneg {L : List (List Char)} :
    ∀ res, (∀ p ∈ res, PyFloat.Nonneg (Prod.snd p).speed_cs) →
      ∀ p ∈ L.foldl processJohnLine res, PyFloat.Nonneg (Prod.snd p).speed_cs := by
  induction L with
  | nil => intro res h; exact h
  | cons l L ih =>
    intro res h
    rw [List.foldl_cons]
    refine ih _ ?_
    unfold processJohnLine
    cases hu : johnLineUpdate l with
    | none => exact h
    | some kv =>
      obtain ⟨k, v⟩ := kv
      intro p hp
      rcases mem_upsert (by simpa [applyUpd] using hp) with rfl | hp2
      · exact johnLineUpdate_nonneg hu
      · exact h p hp2

theorem processTokens_writes {post : List (List Char)} {t : List Char} {alg : String}
    (ht : hash_types (String.mk t) = some alg)
    (hu : ∃ u ∈ post, containsSub hsPat u = true) :
    ∀ (pre : List (List Char)) res,
      alookup alg (processTokens res (pre ++ t :: post)) ≠ none := by
  intro pre
  induction pre with
  | nil =>
    intro res
    obtain ⟨u, hu1, hu2⟩ := hu
    obtain ⟨pr, hpr⟩ := findSpeedPair_isSome hu1 hu2 t
    obtain ⟨sstr, ustr⟩ := pr
    rw [List.nil_append, processTokens,
      show tokenUpdate t post =
          some (alg, ⟨parse_hashcat_speed (String.mk sstr), String.mk (sstr ++ ' ' :: ustr)⟩) by
        unfold tokenUpdate
        rw [ht, hpr]]
    refine processTokens_keeps ?_
    simp [applyUpd, alookup_upsert_self]
  | cons a pre ih =>
    intro res
    rw [List.cons_append, processTokens]
    exact ih _

/-! ### Claims -/

/-- C1 (amended).  Speed-string normalizers.  For every decimal numeral
(digit run, or digit run, dot, nonempty digit run) the normalizers return
the numeral's value; with a trailing suffix from the tool's own
case-sensitive table (hashcat `k/M/G/T`, John `K/M/G`) they return the
numeral's value times that suffix's multiplier.  The original claim's
"every other (malformed) input string returns 0.0" holds only for inputs
whose remainder (after removing a recognized trailing suffix, when present)
is rejected by Python `float()` conversion: strings `float()` accepts, such
as `"inf"`, `"nan"`, signed or exponent forms, are returned as parsed
instead (see the counterexample).  Both normalizers are total functions in
this embedding, so no exception is raised on any input. -/
theorem c1_speed_normalizer :
    (∀ l : List Char, Numeral l →
      parse_hashcat_speed (String.mk l) = PyFloat.finite (numeralVal l) ∧
      parse_john_speed (String.mk l) = PyFloat.finite (numeralVal l) ∧
      (∀ (c : Char) (m : ℚ), hashcatMultipliers c = some m →
        parse_hashcat_speed (String.mk (l ++ [c])) = PyFloat.finite (numeralVal l * m)) ∧
      (∀ (c : Char) (m : ℚ), johnMultipliers c = some m →
        parse_john_speed (String.mk (l ++ [c])) = PyFloat.finite (numeralVal l * m))) ∧
    (∀ s : String,
      ((∀ c, s.data.getLast? = some c → hashcatMultipliers c = none) →
        pyFloatOfChars s.data = none → parse_hashcat_speed s = PyFloat.finite 0) ∧
      (∀ (c : Char) (m : ℚ), s.data.getLast? = some c → hashcatMultipliers c = some m →
        pyFloatOfChars s.data.dropLast = none → parse_hashcat_speed s = PyFloat.finite 0) ∧
      ((∀ c, s.data.getLast? = some c → johnMultipliers c = none) →
        pyFloatOfChars s.data = none → parse_john_speed s = PyFloat.finite 0) ∧
      (∀ (c : Char) (m : ℚ), s.data.getLast? = some c → johnMultipliers c = some m →
        pyFloatOfChars s.data.dropLast = none → parse_john_speed s = PyFloat.finite 0)) := by
  constructor
  · intro l hl
    exact ⟨parse_hashcat_speed_numeral hl, parse_john_speed_numeral hl,
      fun c m hm => parse_hashcat_speed_suffix hl hm,
      fun c m hm => parse_john_speed_suffix hl hm⟩
  · intro s
    refine ⟨parse_hashcat_speed_fail_nosuffix, ?_, parse_john_speed_fail_nosuffix, ?_⟩
    · exact fun c m hL hm h2 => parse_hashcat_speed_fail_suffix hL hm h2
    · exact fun c m hL hm h2 => parse_john_speed_fail_suffix hL hm h2

/-- Witness for C1: concrete instances of each part — `"12.4M"` scales by
`1e6` for hashcat, `"3456K"` scales by `1e3` for John, a bare numeral is
returned as-is, and a non-numeric string yields `0.0`. -/
theorem c1_speed_normalizer_witness :
    parse_hashcat_speed (String.mk (['1', '2', '.', '4'] ++ ['M'])) = PyFloat.finite 12400000 ∧
    parse_john_speed (String.mk (['3', '4', '5', '6'] ++ ['K'])) = PyFloat.finite 3456000 ∧
    parse_john_speed (String.mk ['3', '4', '5', '6']) = PyFloat.finite 3456 ∧
    parse_hashcat_speed "zz" = PyFloat.finite 0 := by
  have h := c1_speed_normalizer
  have hnum124 : Numeral ['1', '2', '.', '4'] :=
    Or.inr ⟨['1', '2'], ['4'], by decide, by decide, by decide, rfl⟩
  have hnum3456 : Numeral ['3', '4', '5', '6'] := Or.inl ⟨by decide, by decide⟩
  have hval124 : numeralVal ['1', '2', '.', '4'] = 62 / 5 := by
    rw [show (['1', '2', '.', '4'] : List Char) = ['1', '2'] ++ '.' :: ['4'] from rfl,
      numeralVal_frac (by decide), show digitsVal ['1', '2'] = 12 from by decide,
      show digitsVal ['4'] = 4 from by decide]
    norm_num
  have hval3456 : numeralVal ['3', '4', '5', '6'] = 3456 := by
    rw [numeralVal_int (by decide), show digitsVal ['3', '4', '5', '6'] = 3456 from by decide]
    norm_num
  refine ⟨?_, ?_, ?_, ?_⟩
  · rw [(h.1 ['1', '2', '.', '4'] hnum124).2.2.1 'M' 1000000 (by decide), hval124]
    norm_num
  · rw [(h.1 ['3', '4', '5', '6'] hnum3456).2.2.2 'K' 1000 (by decide), hval3456]
    norm_num
  · rw [(h.1 ['3', '4', '5', '6'] hnum3456).2.1, hval3456]
  · apply (h.2 "zz").1
    · intro c hc
      rw [show ("zz" : String).data.getLast? = some 'z' from rfl] at hc
      rw [← Option.some.inj hc]
      decide
    · decide

/-- Counterexample for C1 as stated: `"inf"` is not a numeral-with-suffix
string (its trailing character `f` is not in either multiplier table), so
the claim demands `0.0`, but Python `float("inf")` succeeds and
`parse_hashcat_speed` returns the infinity unchanged. -/
theorem c1_speed_normalizer_cex :
    parse_hashcat_speed "inf" = PyFloat.inf ∧ PyFloat.inf ≠ PyFloat.finite 0 := by
  decide

/-- C2 (amended).  Grammar A exemplar: for any input text with a line whose
tokens are `A ++ ["0"] ++ B ++ ["12.4", "MH/s"] ++ C`, where no token of `B`
or `C` contains `"H/s"` (so `"MH/s"` is the first unit token found after
each `"0"`) and no later line updates the `"MD5"` key, the parser maps
`"MD5"` to formatted string `"12.4 MH/s"` — but with numeric rate `12.4`
(62/5), not the `12.4e6` of the original claim: the speed token handed to
`parse_hashcat_speed` is `parts[j-1] = "12.4"`, which has no trailing
magnitude suffix; the `M` sits in the separate unit token `"MH/s"` and is
never applied. -/
theorem c2_grammarA {s : String} {La Lb : List (List Char)} {line : List Char}
    {A B C : List (List Char)}
    (hlines : splitLines s.data = La ++ line :: Lb)
    (htoks : splitWs line = A ++ tok0 :: (B ++ tok124 :: tokMHs :: C))
    (hB : ∀ t ∈ B, containsSub hsPat t = false)
    (hC : ∀ t ∈ C, containsSub hsPat t = false)
    (hLb : ∀ l ∈ Lb, ∀ res, alookup "MD5" (processLine res l) = alookup "MD5" res) :
    alookup "MD5" (parse_hashcat_benchmark s) = some md5Metric ∧
    md5Metric.speed_hs = PyFloat.finite (62 / 5) ∧
    md5Metric.speed_formatted = "12.4 MH/s" := by
  refine ⟨?_, ?_, rfl⟩
  · unfold parse_hashcat_benchmark
    rw [hlines, List.foldl_append, List.foldl_cons, foldl_preserve_hashcat hLb]
    have hmem : tokMHs ∈ splitWs line := by
      rw [htoks]
      simp
    have hcl : containsSub hsPat line = true := containsSub_of_token hmem (by decide)
    rw [processLine, if_pos hcl, htoks]
    exact md5_main hB hC A _
  · show parse_hashcat_speed (String.mk tok124) = PyFloat.finite (62 / 5)
    rw [show tok124 = ['1', '2'] ++ '.' :: ['4'] from rfl,
      parse_hashcat_speed_numeral (Or.inr ⟨['1', '2'], ['4'], by decide, by decide, by decide,
        rfl⟩),
      numeralVal_frac (by decide), show digitsVal ['1', '2'] = 12 from by decide,
      show digitsVal ['4'] = 4 from by decide]
    norm_num

/-- Witness for C2: the single-line text `"0 12.4 MH/s"`. -/
theorem c2_grammarA_witness :
    alookup "MD5" (parse_hashcat_benchmark "0 12.4 MH/s") = some md5Metric ∧
    md5Metric.speed_hs = PyFloat.finite (62 / 5) ∧
    md5Metric.speed_formatted = "12.4 MH/s" := by
  have h1 : splitLines ("0 12.4 MH/s" : String).data =
      [] ++ ['0', ' ', '1', '2', '.', '4', ' ', 'M', 'H', '/', 's'] :: [] := by decide
  have h2 : splitWs ['0', ' ', '1', '2', '.', '4', ' ', 'M', 'H', '/', 's'] =
      [] ++ tok0 :: ([] ++ tok124 :: tokMHs :: []) := by decide
  exact c2_grammarA h1 h2 (by simp) (by simp) (by simp)

/-- Counterexample for C2 as stated: on the text `"0 12.4 MH/s"` — whose
only line has token `"0"` followed by tokens `"12.4"` and `"MH/s"` — the
`"MD5"` entry's numeric rate is `12.4` (62/5), not `12.4e6`. -/
theorem c2_grammarA_cex :
    alookup "MD5" (parse_hashcat_benchmark "0 12.4 MH/s") =
      some ⟨PyFloat.finite (62 / 5), "12.4 MH/s"⟩ ∧
    PyFloat.finite (62 / 5) ≠ PyFloat.finite 12400000 := by
  constructor
  · have hs : parse_hashcat_speed (String.mk ['1', '2', '.', '4']) = PyFloat.finite (62 / 5) := by
      rw [parse_hashcat_speed_numeral (l := ['1', '2', '.', '4'])
          (Or.inr ⟨['1', '2'], ['4'], by decide, by decide, by decide, rfl⟩),
        show (['1', '2', '.', '4'] : List Char) = ['1', '2'] ++ '.' :: ['4'] from rfl,
        numeralVal_frac (by decide), show digitsVal ['1', '2'] = 12 from by decide,
        show digitsVal ['4'] = 4 from by decide]
      norm_num
    have hd : ("0 12.4 MH/s" : String).data =
        ['0', ' ', '1', '2', '.', '4', ' ', 'M', 'H', '/', 's'] := rfl
    simp only [parse_hashcat_benchmark, hd]
    rw [show splitLines ['0', ' ', '1', '2', '.', '4', ' ', 'M', 'H', '/', 's'] =
        [['0', ' ', '1', '2', '.', '4', ' ', 'M', 'H', '/', 's']] from by decide]
    simp only [List.foldl]
    rw [show processLine [] ['0', ' ', '1', '2', '.', '4', ' ', 'M', 'H', '/', 's'] =
        upsert "MD5" ⟨parse_hashcat_speed (String.mk ['1', '2', '.', '4']),
          String.mk (['1', '2', '.', '4'] ++ ' ' :: ['M', 'H', '/', 's'])⟩ [] from rfl]
    rw [hs]
    norm_num [upsert, alookup]
  · intro h
    rw [PyFloat.finite.injEq] at h
    norm_num at h

/-- C3.  Parser totality and tolerance.  Both benchmark parsers are total
functions of the input string in this embedding (every partial Python
operation they use is modelled with its exception path, and each is either
guarded or caught in the source), so no input raises; the empty string
yields an empty mapping.  Lines that do not match the grammar contribute
nothing: a hashcat line without an `H/s` substring, or whose tokens include
no known mode code, leaves the result dict unchanged, and a John line
without a case-insensitive `c/s`, without a colon, or whose speed regex
finds no match does likewise. -/
theorem c3_parsers_total :
    parse_hashcat_benchmark "" = [] ∧ parse_john_benchmark "" = [] ∧
    (∀ (res : List (String × HCMetric)) (line : List Char),
      containsSub hsPat line = false → processLine res line = res) ∧
    (∀ (res : List (String × HCMetric)) (line : List Char),
      (∀ t ∈ splitWs line, hash_types (String.mk t) = none) → processLine res line = res) ∧
    (∀ (res : List (String × JMetric)) (line : List Char),
      containsSub csPat (line.map toLowerAscii) = false → processJohnLine res line = res) ∧
    (∀ (res : List (String × JMetric)) (line : List Char),
      splitFirstColon line = none → processJohnLine res line = res) ∧
    (∀ (res : List (String × JMetric)) (line p0 p1 : List Char),
      splitFirstColon line = some (p0, p1) → johnSpeedSearch (stripWs p1) = none →
      processJohnLine res line = res) := by
  refine ⟨by decide, by decide, ?_, ?_, ?_, ?_, ?_⟩
  · exact fun res line h => processLine_skip h res
  · exact fun res line h => processLine_skip_nocode h res
  · exact fun res line h => processJohnLine_skip_nocs h res
  · exact fun res line h => processJohnLine_skip_nocolon h res
  · exact fun res line p0 p1 h1 h2 => processJohnLine_skip_nomatch h1 h2 res

/-- Witness for C3: concrete unmatched lines leave a nonempty dict intact. -/
theorem c3_parsers_total_witness :
    processLine [("MD5", (⟨PyFloat.finite 1, "1 H/s"⟩ : HCMetric))] ['h', 'i'] =
      [("MD5", (⟨PyFloat.finite 1, "1 H/s"⟩ : HCMetric))] ∧
    processJohnLine [] ['h', 'i'] = [] := by
  constructor
  · exact c3_parsers_total.2.2.1 _ ['h', 'i'] (by decide)
  · exact c3_parsers_total.2.2.2.2.1 _ ['h', 'i'] (by decide)

/-- C4 (amended).  For every input text, every numeric rate in the mapping
produced by `parse_john_benchmark` is non-negative (its regex group is an
unsigned numeral with an optional magnitude suffix).  The same does not
hold for `parse_hashcat_benchmark`: the token before the unit token is fed
to `float()` unchecked, so a negative token yields a negative rate (see the
counterexample). -/
theorem c4_rates_nonneg_john (s : String) (k : String) (v : JMetric)
    (hm : (k, v) ∈ parse_john_benchmark s) : PyFloat.Nonneg v.speed_cs := by
  unfold parse_john_benchmark at hm
  exact john_entries_nonneg [] (by simp) (k, v) hm

/-- Witness for C4 at the text `"Raw-MD5: 9 c/s"`. -/
theorem c4_rates_nonneg_john_witness :
    ("Raw-MD5", (⟨parse_john_speed (String.mk ['9']),
        String.mk ['9', ' ', 'c', '/', 's']⟩ : JMetric)) ∈
      parse_john_benchmark "Raw-MD5: 9 c/s" ∧
    PyFloat.Nonneg (parse_john_speed (String.mk ['9'])) := by
  have hmem : ("Raw-MD5", (⟨parse_john_speed (String.mk ['9']),
      String.mk ['9', ' ', 'c', '/', 's']⟩ : JMetric)) ∈
      parse_john_benchmark "Raw-MD5: 9 c/s" := by
    rw [show parse_john_benchmark "Raw-MD5: 9 c/s" =
        [("Raw-MD5", (⟨parse_john_speed (String.mk ['9']),
          String.mk ['9', ' ', 'c', '/', 's']⟩ : JMetric))] from rfl]
    exact List.mem_singleton.mpr rfl
  exact ⟨hmem, c4_rates_nonneg_john "Raw-MD5: 9 c/s" _ _ hmem⟩

/-- Counterexample for C4 as stated: on the text `"0 -1 H/s"` the hashcat
parser records the negative rate `-1.0` for `"MD5"`. -/
theorem c4_rates_nonneg_cex :
    alookup "MD5" (parse_hashcat_benchmark "0 -1 H/s") =
      some ⟨PyFloat.finite (-1), "-1 H/s"⟩ ∧
    ¬ PyFloat.Nonneg (PyFloat.finite (-1)) := by
  constructor
  · have hs : parse_hashcat_speed (String.mk ['-', '1']) = PyFloat.finite (-1) := by
      have h0 : pyFloatOfChars ['-', '1'] =
          some (.finite (-((digitsVal ['1'] : ℚ)) * (10 : ℚ) ^ (0 : ℤ))) := by
        simp only [pyFloatOfChars,
          show stripWs ['-', '1'] = ['-', '1'] from rfl,
          show readSign ['-', '1'] = (true, ['1']) from rfl]
        have hp : parseNumber ['1'] = some ((digitsVal ['1'] : ℚ), []) := by
          have h2 : parseNumber (['1'] ++ []) = some ((digitsVal ['1'] : ℚ), []) :=
            parseNumber_int (by decide) (by decide) trivial
          simpa using h2
        rw [if_neg (by decide), if_neg (by decide), hp]
        simp [parseExp]
      rw [show parse_hashcat_speed (String.mk ['-', '1']) =
          (match pyFloatOfChars ['-', '1'] with
            | some v => v
            | none => PyFloat.finite 0) from rfl, h0]
      rw [show digitsVal ['1'] = 1 from by decide]
      norm_num
    have hd : ("0 -1 H/s" : String).data = ['0', ' ', '-', '1', ' ', 'H', '/', 's'] := rfl
    simp only [parse_hashcat_benchmark, hd]
    rw [show splitLines ['0', ' ', '-', '1', ' ', 'H', '/', 's'] =
        [['0', ' ', '-', '1', ' ', 'H', '/', 's']] from by decide]
    simp only [List.foldl]
    rw [show processLine [] ['0', ' ', '-', '1', ' ', 'H', '/', 's'] =
        upsert "MD5" ⟨parse_hashcat_speed (String.mk ['-', '1']),
          String.mk (['-', '1'] ++ ' ' :: ['H', '/', 's'])⟩ [] from rfl]
    rw [hs]
    norm_num [upsert, alookup]
  · simp only [PyFloat.Nonneg]
    norm_num

/-- C5 (amended).  On every exit path of `run_attack_performance_test` on
which both fixture writes succeed, no exception escapes (every attack
outcome — completion, failure, raise or timeout — is caught) and cleanup
runs after both attempts: the hash file is removed when its `os.remove`
succeeds, and the wordlist file is removed when both removals succeed; any
cleanup failure is swallowed.  The original claim's "both files are removed
on every exit path" fails in two ways (see the counterexample): a failed
hash-file removal skips the wordlist removal (both calls share one
`try`), and a failed fixture write exits by exception with no cleanup at
all. -/
theorem c5_cleanup (env : AttackEnv) (h1 : env.hashWriteOk = true)
    (h2 : env.wordlistWriteOk = true) :
    (∃ r, (run_attack_performance_test env).1 = Except.ok r) ∧
    (run_attack_performance_test env).2.hashFileExists = !env.removeHashOk ∧
    (run_attack_performance_test env).2.wordlistFileExists =
      !(env.removeHashOk && env.removeWordlistOk) := by
  obtain ⟨hw, ww, ho, he, jo, je, rh, rw2⟩ := env
  simp only at h1 h2
  subst h1 h2
  cases rh <;> cases rw2 <;>
    simp [run_attack_performance_test]

/-- Witness for C5: a run in which both tools raise and both removals
succeed still returns normally with both files removed. -/
theorem c5_cleanup_witness :
    (∃ r, (run_attack_performance_test
      ⟨true, true, .raises, 0, .raises, 0, true, true⟩).1 = Except.ok r) ∧
    (run_attack_performance_test
      ⟨true, true, .raises, 0, .raises, 0, true, true⟩).2.hashFileExists = false ∧
    (run_attack_performance_test
      ⟨true, true, .raises, 0, .raises, 0, true, true⟩).2.wordlistFileExists = false :=
  c5_cleanup ⟨true, true, .raises, 0, .raises, 0, true, true⟩ rfl rfl

/-- Counterexample for C5 as stated: (i) when `os.remove` of the hash file
raises, the wordlist file is never removed although the function returns
normally; (ii) when the wordlist fixture write raises, the function exits
by exception with the hash file left on disk. -/
theorem c5_cleanup_cex :
    (run_attack_performance_test
      ⟨true, true, .raises, 0, .raises, 0, false, true⟩).2 = ⟨true, true⟩ ∧
    (∃ r, (run_attack_performance_test
      ⟨true, true, .raises, 0, .raises, 0, false, true⟩).1 = Except.ok r) ∧
    run_attack_performance_test ⟨true, false, .raises, 0, .raises, 0, true, true⟩ =
      (Except.error (), ⟨true, false⟩) := by
  refine ⟨rfl, ⟨_, rfl⟩, rfl⟩

/-- C6 (code bug).  The claim (and spec §7) requires that a fixture-write
failure abort only that tool's attack scenario without escaping the
component; in the code both fixture writes sit before and outside every
`try` block, so a raised write propagates out of
`run_attack_performance_test` and out of `generate_report` (line 291 calls
it unguarded), aborting the whole run in `main`'s fatal handler.  This
theorem evaluates the model at the failing input: with the wordlist write
raising, `run_attack_performance_test` yields `Except.error` and so does
`generate_report` for an available tool. -/
theorem c6_fixture_write_escapes :
    (run_attack_performance_test ⟨true, false, .raises, 0, .raises, 0, true, true⟩).1 =
      Except.error () ∧
    generate_report ⟨⟨false, .error (), false, .error (), .error ()⟩, true, false, .raises,
      .raises, ⟨true, false, .raises, 0, .raises, 0, true, true⟩⟩ = Except.error () := by
  exact ⟨rfl, rfl⟩

theorem gatherGpu_cpu (env : SysEnv) (si : SystemInfo) : (gatherGpu env si).cpu = si.cpu := by
  unfold gatherGpu
  cases h : env.gpuProbe with
  | error e => rfl
  | ok p =>
    obtain ⟨rc, out⟩ := p
    by_cases hrc : rc = 0 <;> simp [hrc]

theorem gatherGpu_mem (env : SysEnv) (si : SystemInfo) :
    (gatherGpu env si).memory_gb = si.memory_gb := by
  unfold gatherGpu
  cases h : env.gpuProbe with
  | error e => rfl
  | ok p =>
    obtain ⟨rc, out⟩ := p
    by_cases hrc : rc = 0 <;> simp [hrc]

theorem gatherGpu_gpu_fail {env : SysEnv} (h : env.gpuProbe = Except.error ())
    (si : SystemInfo) : (gatherGpu env si).gpu = some "Not available" := by
  unfold gatherGpu
  rw [h]

/-- C7 (amended).  Host-fact collection.  `gather_system_info` never raises
(the outer `except Exception` absorbs proc-file read failures and the inner
bare `except` absorbs accelerator-probe failures; the model is a total
function into `SystemInfo`).  The accelerator probe is independent: its
outcome never affects the CPU or memory facts, and when it fails after the
proc-file reads went through, the `'Not available'` sentinel is stored.
But the facts are not mutually independent as claimed: all three blocks sit
in a single `try`, so a raised CPU read aborts memory and accelerator
collection entirely, and a raised memory read aborts accelerator
collection; facts missed that way are simply absent, not sentinel-valued
(see the counterexample). -/
theorem c7_system_info :
    (∀ env : SysEnv, env.cpuinfoExists = true → env.cpuinfoRead = Except.error () →
      gather_system_info env = ⟨none, none, none⟩) ∧
    (∀ (env : SysEnv) (content : String), env.cpuinfoExists = true →
      env.cpuinfoRead = Except.ok content → env.meminfoExists = true →
      env.meminfoRead = Except.error () →
      gather_system_info env = applyCpu ⟨none, none, none⟩ content) ∧
    (∀ e1 e2 : SysEnv, e1.cpuinfoExists = e2.cpuinfoExists →
      e1.cpuinfoRead = e2.cpuinfoRead → e1.meminfoExists = e2.meminfoExists →
      e1.meminfoRead = e2.meminfoRead →
      (gather_system_info e1).cpu = (gather_system_info e2).cpu ∧
      (gather_system_info e1).memory_gb = (gather_system_info e2).memory_gb) ∧
    (∀ env : SysEnv, (env.cpuinfoExists = true → env.cpuinfoRead ≠ Except.error ()) →
      (env.meminfoExists = true → env.meminfoRead ≠ Except.error ()) →
      env.gpuProbe = Except.error () → (gather_system_info env).gpu = some "Not available") := by
  refine ⟨?_, ?_, ?_, ?_⟩
  · intro env h1 h2
    simp [gather_system_info, h1, h2]
  · intro env content h1 h2 h3 h4
    simp [gather_system_info, gatherMem, h1, h2, h3, h4]
  · intro e1 e2 h1 h2 h3 h4
    obtain ⟨a1, b1, c1, d1, g1⟩ := e1
    obtain ⟨a2, b2, c2, d2, g2⟩ := e2
    simp only at h1 h2 h3 h4
    subst h1 h2 h3 h4
    have hmem : ∀ si, (gatherMem ⟨a1, b1, c1, d1, g1⟩ si).cpu =
        (gatherMem ⟨a1, b1, c1, d1, g2⟩ si).cpu ∧
        (gatherMem ⟨a1, b1, c1, d1, g1⟩ si).memory_gb =
        (gatherMem ⟨a1, b1, c1, d1, g2⟩ si).memory_gb := by
      intro si
      unfold gatherMem
      simp only
      cases c1 with
      | false =>
        simp [gatherGpu_cpu, gatherGpu_mem]
      | true =>
        cases d1 with
        | error e => simp
        | ok content => simp [gatherGpu_cpu, gatherGpu_mem]
    unfold gather_system_info
    simp only
    cases a1 with
    | false => exact hmem ⟨none, none, none⟩
    | true =>
      cases b1 with
      | error e => simp
      | ok content =>
        simp only
        exact hmem (applyCpu ⟨none, none, none⟩ content)
  · intro env hcpu hmem hgpu
    unfold gather_system_info
    cases ha : env.cpuinfoExists with
    | false =>
      rw [if_neg Bool.false_ne_true]
      unfold gatherMem
      cases hc : env.meminfoExists with
      | false =>
        rw [if_neg Bool.false_ne_true]
        exact gatherGpu_gpu_fail hgpu _
      | true =>
        rcases hd : env.meminfoRead with e | content
        · exact absurd (hd.trans (by cases e; rfl)) (hmem hc)
        · simp only [if_pos rfl, hd]
          exact gatherGpu_gpu_fail hgpu _
    | true =>
      rcases hb : env.cpuinfoRead with e | content
      · exact absurd (hb.trans (by cases e; rfl)) (hcpu ha)
      · simp only [if_pos rfl, hb]
        unfold gatherMem
        cases hc : env.meminfoExists with
        | false =>
          rw [if_neg Bool.false_ne_true]
          exact gatherGpu_gpu_fail hgpu _
        | true =>
          rcases hd : env.meminfoRead with e | content2
          · exact absurd (hd.trans (by cases e; rfl)) (hmem hc)
          · simp only [if_pos rfl, hd]
            exact gatherGpu_gpu_fail hgpu _

/-- Witness for C7: a failed CPU read wipes everything; a failed
accelerator probe alone yields the sentinel with other facts intact. -/
theorem c7_system_info_witness :
    gather_system_info ⟨true, .error (), true, .ok "MemTotal: 8388608", .ok (0, "RTX")⟩ =
      ⟨none, none, none⟩ ∧
    (gather_system_info ⟨false, .error (), false, .error (), .error ()⟩).gpu =
      some "Not available" := by
  constructor
  · exact c7_system_info.1 ⟨true, .error (), true, .ok "MemTotal: 8388608", .ok (0, "RTX")⟩
      rfl rfl
  · exact c7_system_info.2.2.2 ⟨false, .error (), false, .error (), .error ()⟩
      (fun h => absurd h (by decide)) (fun h => absurd h (by decide)) rfl

/-- Counterexample for C7 as stated: with a readable meminfo reporting 8 GiB
and a working accelerator probe, a raised CPU-file read leaves memory and
accelerator uncollected (first conjunct), although the same environment
without the CPU file collects both (second conjunct). -/
theorem c7_system_info_cex :
    gather_system_info ⟨true, .error (), true, .ok "MemTotal: 8388608", .ok (0, "RTX 4090")⟩ =
      ⟨none, none, none⟩ ∧
    gather_system_info ⟨false, .error (), true, .ok "MemTotal: 8388608", .ok (0, "RTX 4090")⟩ =
      ⟨none, some 8, some "RTX 4090"⟩ := by
  decide

/-- C8.  When `check_tool_availability` reports both tools unavailable,
`generate_report` returns a report whose benchmarks mapping has no per-tool
entries, whose attack-result mapping is empty, and whose metadata still
carries the collected host context together with the two availability
booleans, both `false`. -/
theorem c8_report_unavailable (env : ReportEnv) (h1 : env.hashcatAvailable = false)
    (h2 : env.johnAvailable = false) :
    generate_report env =
      Except.ok ⟨gather_system_info env.sys, false, false, none, none, []⟩ := by
  unfold generate_report
  rw [h1, h2]
  simp

/-- Witness for C8 at a concrete environment. -/
theorem c8_report_unavailable_witness :
    generate_report ⟨⟨false, .error (), false, .error (), .error ()⟩, false, false, .raises,
      .raises, ⟨true, true, .raises, 0, .raises, 0, true, true⟩⟩ =
      Except.ok ⟨gather_system_info ⟨false, .error (), false, .error (), .error ()⟩,
        false, false, none, none, []⟩ :=
  c8_report_unavailable ⟨⟨false, .error (), false, .error (), .error ()⟩, false, false,
    .raises, .raises, ⟨true, true, .raises, 0, .raises, 0, true, true⟩⟩ rfl rfl

/-- The Grammar-B exemplar line `Raw-MD5 : 3456 c/s real, 3456 c/s virtual`. -/
def rawMd5Line : List Char := "Raw-MD5 : 3456 c/s real, 3456 c/s virtual".data

/-- The metric the John parser records for the exemplar line: rate
`parse_john_speed "3456"` and formatted string `"3456 c/s"` (`group(0)` of
the first regex match). -/
def rawMd5Metric : JMetric :=
  ⟨parse_john_speed (String.mk ['3', '4', '5', '6']),
    String.mk ['3', '4', '5', '6', ' ', 'c', '/', 's']⟩

/-- C9 (amended).  Grammar B exemplar: for any input text containing the
line `Raw-MD5 : 3456 c/s real, 3456 c/s virtual`, provided no later line
updates the `"Raw-MD5"` key (a later matching line with the same label
would overwrite the entry — see the counterexample), the parser maps
`"Raw-MD5"` — the label before the first colon, trimmed, used verbatim —
to numeric rate `3456.0` and formatted string `"3456 c/s"`. -/
theorem c9_grammarB {s : String} {La Lb : List (List Char)}
    (hlines : splitLines s.data = La ++ rawMd5Line :: Lb)
    (hLb : ∀ l ∈ Lb, ∀ res,
      alookup "Raw-MD5" (processJohnLine res l) = alookup "Raw-MD5" res) :
    alookup "Raw-MD5" (parse_john_benchmark s) = some rawMd5Metric ∧
    rawMd5Metric.speed_cs = PyFloat.finite 3456 ∧
    rawMd5Metric.speed_formatted = "3456 c/s" := by
  refine ⟨?_, ?_, rfl⟩
  · unfold parse_john_benchmark
    rw [hlines, List.foldl_append, List.foldl_cons, foldl_preserve_john hLb,
      show processJohnLine (List.foldl processJohnLine [] La) rawMd5Line =
        upsert "Raw-MD5" rawMd5Metric (List.foldl processJohnLine [] La) from rfl]
    exact alookup_upsert_self _ _ _
  · show parse_john_speed (String.mk ['3', '4', '5', '6']) = PyFloat.finite 3456
    rw [parse_john_speed_numeral (Or.inl ⟨by decide, by decide⟩), numeralVal_int (by decide),
      show digitsVal ['3', '4', '5', '6'] = 3456 from by decide]
    norm_num

/-- Witness for C9: the exemplar line as the whole input. -/
theorem c9_grammarB_witness :
    alookup "Raw-MD5"
        (parse_john_benchmark "Raw-MD5 : 3456 c/s real, 3456 c/s virtual") =
      some rawMd5Metric ∧
    rawMd5Metric.speed_cs = PyFloat.finite 3456 ∧
    rawMd5Metric.speed_formatted = "3456 c/s" := by
  have h1 : splitLines ("Raw-MD5 : 3456 c/s real, 3456 c/s virtual" : String).data =
      [] ++ rawMd5Line :: [] := by decide
  exact c9_grammarB h1 (by simp)

/-- Counterexample for C9 as stated: a text containing the exemplar line
followed by `Raw-MD5 : 9 c/s` maps `"Raw-MD5"` to rate `9.0`, not
`3456.0` — the later line overwrites the entry. -/
theorem c9_grammarB_cex :
    alookup "Raw-MD5"
        (parse_john_benchmark
          "Raw-MD5 : 3456 c/s real, 3456 c/s virtual\nRaw-MD5 : 9 c/s") =
      some ⟨PyFloat.finite 9, "9 c/s"⟩ ∧
    PyFloat.finite 9 ≠ PyFloat.finite 3456 := by
  constructor
  · have hs : parse_john_speed (String.mk ['9']) = PyFloat.finite 9 := by
      rw [parse_john_speed_numeral (Or.inl ⟨by decide, by decide⟩), numeralVal_int (by decide),
        show digitsVal ['9'] = 9 from by decide]
      norm_num
    rw [show parse_john_benchmark
          "Raw-MD5 : 3456 c/s real, 3456 c/s virtual\nRaw-MD5 : 9 c/s" =
        [("Raw-MD5", ⟨parse_john_speed (String.mk ['9']),
          String.mk ['9', ' ', 'c', '/', 's']⟩)] from rfl, hs]
    rw [show alookup "Raw-MD5" [("Raw-MD5",
        (⟨PyFloat.finite 9, String.mk ['9', ' ', 'c', '/', 's']⟩ : JMetric))] =
      some ⟨PyFloat.finite 9, String.mk ['9', ' ', 'c', '/', 's']⟩ from by
        rw [alookup, if_pos rfl]]
  · intro h
    rw [PyFloat.finite.injEq] at h
    norm_num at h

/-- C10.  In `parse_hashcat_benchmark`, every whitespace-separated token
equal to one of the five known mode codes triggers metric extraction for
the corresponding algorithm whenever any later token of the line contains
`"H/s"` — the token's position or role (it may itself be a speed value) is
never checked.  In particular the single line `"0 100 MH/s"` produces
metrics for both `"MD5"` (from token `"0"`) and `"SHA1"` (from token
`"100"`, which is simultaneously the speed value), both with rate `100.0`
and formatted string `"100 MH/s"`. -/
theorem c10_mode_code_tokens :
    (∀ (res : List (String × HCMetric)) (pre post : List (List Char)) (t : List Char)
      (alg : String), hash_types (String.mk t) = some alg →
      (∃ u ∈ post, containsSub hsPat u = true) →
      alookup alg (processTokens res (pre ++ t :: post)) ≠ none) ∧
    parse_hashcat_benchmark "0 100 MH/s" =
      [("MD5", ⟨parse_hashcat_speed (String.mk ['1', '0', '0']),
          String.mk ['1', '0', '0', ' ', 'M', 'H', '/', 's']⟩),
       ("SHA1", ⟨parse_hashcat_speed (String.mk ['1', '0', '0']),
          String.mk ['1', '0', '0', ' ', 'M', 'H', '/', 's']⟩)] ∧
    parse_hashcat_speed (String.mk ['1', '0', '0']) = PyFloat.finite 100 := by
  refine ⟨fun res pre post t alg ht hu => processTokens_writes ht hu pre res, rfl, ?_⟩
  rw [parse_hashcat_speed_numeral (Or.inl ⟨by decide, by decide⟩), numeralVal_int (by decide),
    show digitsVal ['1', '0', '0'] = 100 from by decide]
  norm_num

/-- Witness for C10: token `"100"` of the line `"0 100 MH/s"` — itself the
speed value — still triggers a `"SHA1"` entry. -/
theorem c10_mode_code_tokens_witness :
    alookup "SHA1" (processTokens [] ([['0']] ++ ['1', '0', '0'] :: [['M', 'H', '/', 's']])) ≠
      none :=
  c10_mode_code_tokens.1 [] [['0']] [['M', 'H', '/', 's']] ['1', '0', '0'] "SHA1" (by decide)
    ⟨['M', 'H', '/', 's'], by simp, by decide⟩
